import Mathlib

/-!
Verification of the storage and concurrency core of the bustub-style educational
database engine (lock manager, LRU-K replacer, buffer pool manager, B+tree leaf
page, extendible hash table).  Each C++ source function relevant to the checked
claims is shallowly embedded as an executable Lean definition; theorems below
relate those definitions to the natural-language specification.
-/

namespace Bustub

/-! ## Lock manager data model (src/concurrency/lock_manager.cpp)

`LockMode`, `IsolationLevel`, `TransactionState` and `AbortReason` mirror the
C++ enums.  The constructor order of `LockMode` and `IsolationLevel` matches
the C++ declaration order because the code indexes static matrices with
`static_cast<int>`. -/

inductive LockMode where
  | shared
  | exclusive
  | intentionShared
  | intentionExclusive
  | sharedIntentionExclusive
deriving DecidableEq, Repr, Fintype

inductive IsolationLevel where
  | readUncommitted
  | repeatableRead
  | readCommitted
deriving DecidableEq, Repr, Fintype

inductive TransactionState where
  | growing
  | shrinking
  | committed
  | aborted
deriving DecidableEq, Repr, Fintype

inductive AbortReason where
  | lockOnShrinking
  | upgradeConflict
  | lockSharedOnReadUncommitted
  | tableLockNotPresent
  | attemptedIntentionLockOnRow
  | tableUnlockedBeforeUnlockingRows
  | attemptedUnlockButNoLockHeld
  | incompatibleUpgrade
deriving DecidableEq, Repr, Fintype

open LockMode IsolationLevel TransactionState AbortReason

/-- `lock_compatible_matrix` (lock_manager.cpp lines 54-60): rows are the
already-granted mode, columns the candidate mode, both in C++ enum order
S, X, IS, IX, SIX. -/
def lockCompatible (g c : LockMode) : Bool :=
  match g, c with
  | shared,                   shared                   => true
  | shared,                   intentionShared          => true
  | exclusive,                _                        => false
  | intentionShared,          shared                   => true
  | intentionShared,          intentionShared          => true
  | intentionShared,          intentionExclusive       => true
  | intentionShared,          sharedIntentionExclusive => true
  | intentionExclusive,       intentionShared          => true
  | intentionExclusive,       intentionExclusive       => true
  | sharedIntentionExclusive, intentionShared          => true
  | _,                        _                        => false

/-- `lock_update_state_martrix` (lock_manager.cpp lines 46-52): row is the
currently held mode, column the requested upgrade target. -/
def lockUpgradeAllowed (held target : LockMode) : Bool :=
  match held, target with
  | shared,             exclusive                => true
  | shared,             sharedIntentionExclusive => true
  | intentionShared,    shared                   => true
  | intentionShared,    exclusive                => true
  | intentionShared,    intentionExclusive       => true
  | intentionShared,    sharedIntentionExclusive => true
  | intentionExclusive, exclusive                => true
  | intentionExclusive, sharedIntentionExclusive => true
  | sharedIntentionExclusive, exclusive          => true
  | _, _ => false

/-- `unlock_change_state_matrix` (lock_manager.cpp lines 62-68): row is the
unlocked mode (S, X, IS, IX, SIX), column the isolation level in C++ enum
order READ_UNCOMMITTED, REPEATABLE_READ, READ_COMMITTED.  A `true` entry
forces the transaction from GROWING to SHRINKING on unlock. -/
def unlockForcesShrinking (m : LockMode) (iso : IsolationLevel) : Bool :=
  match m, iso with
  | shared, repeatableRead => true
  | exclusive, _ => true
  | _, _ => false

/-- The isolation-level prelude of `LockManager::LockTable`
(lock_manager.cpp lines 82-108), performed before any queue manipulation.
Returns the abort reason thrown, or `none` when the acquisition may proceed.
Every `some` result is produced together with `SetState(ABORTED)` in the
code, captured by `stateAfterCheck`. -/
def lockTableCheck (iso : IsolationLevel) (st : TransactionState) (mode : LockMode) :
    Option AbortReason :=
  if iso = readUncommitted ∧
      (mode = shared ∨ mode = intentionShared ∨ mode = sharedIntentionExclusive) then
    some lockSharedOnReadUncommitted
  else if iso = readUncommitted ∧ st = shrinking ∧
      (mode = exclusive ∨ mode = intentionExclusive) then
    some lockOnShrinking
  else if iso = readCommitted ∧ st = shrinking ∧
      mode ≠ intentionShared ∧ mode ≠ shared then
    some lockOnShrinking
  else if iso = repeatableRead ∧ st = shrinking then
    some lockOnShrinking
  else
    none

/-- The table-lock modes held by a transaction on the target table,
abstracting the five `IsTable...Locked` queries used by `LockRow`. -/
structure HeldTableLocks where
  s   : Bool
  x   : Bool
  is  : Bool
  ix  : Bool
  six : Bool
deriving DecidableEq, Repr, Fintype

/-- The validation prelude of `LockManager::LockRow`
(lock_manager.cpp lines 331-398), performed before any queue manipulation:
first the intention-mode rejection, then the isolation-level checks (same
tests as `LockTable`), then the multilevel-locking checks against the held
table locks.  Returns the abort reason thrown, or `none`. -/
def lockRowCheck (iso : IsolationLevel) (st : TransactionState) (mode : LockMode)
    (held : HeldTableLocks) : Option AbortReason :=
  if mode ≠ exclusive ∧ mode ≠ shared then
    some attemptedIntentionLockOnRow
  else if iso = readUncommitted ∧
      (mode = shared ∨ mode = intentionShared ∨ mode = sharedIntentionExclusive) then
    some lockSharedOnReadUncommitted
  else if iso = readUncommitted ∧ st = shrinking ∧
      (mode = exclusive ∨ mode = intentionExclusive) then
    some lockOnShrinking
  else if iso = readCommitted ∧ st = shrinking ∧
      mode ≠ intentionShared ∧ mode ≠ shared then
    some lockOnShrinking
  else if iso = repeatableRead ∧ st = shrinking then
    some lockOnShrinking
  else if mode = exclusive ∧ ¬(held.x ∨ held.ix ∨ held.six) then
    some tableLockNotPresent
  else if mode = shared ∧ ¬(held.x ∨ held.ix ∨ held.six ∨ held.s ∨ held.is) then
    some tableLockNotPresent
  else
    none

/-- `TransctionThrowAbort` and the inline aborts both run
`txn->SetState(TransactionState::ABORTED)` before throwing, so the
transaction state after a failed prelude check is ABORTED and is otherwise
unchanged. -/
def stateAfterCheck (st : TransactionState) (res : Option AbortReason) :
    TransactionState :=
  match res with
  | some _ => aborted
  | none => st

/-! ## GrantLock (lock_manager.cpp lines 226-250)

A request queue is a list of `LockRequest`s; the candidate is identified by
its position in the queue (the C++ code compares `shared_ptr` identity, and
a request object occurs at exactly one queue position). -/

structure LockRequest where
  txnId : Int
  mode : LockMode
  granted : Bool
deriving DecidableEq, Repr

instance : Inhabited LockRequest := ⟨⟨0, LockMode.shared, false⟩⟩

/-- Walk of `GrantLock` starting at queue position `p`; `m` is the candidate
request's mode and `cand` its position in the queue.  A granted request must
be compatible; the first ungranted request grants iff it is the candidate. -/
def grantLockAux (m : LockMode) (cand : Nat) : List LockRequest → Nat → Bool
  | [], _ => false
  | r :: rest, p =>
    if r.granted then
      if lockCompatible r.mode m then grantLockAux m cand rest (p + 1) else false
    else
      p == cand

/-- `LockManager::GrantLock` for the candidate request at position `cand` of
`queue`. -/
def grantLock (queue : List LockRequest) (cand : Nat) : Bool :=
  grantLockAux ((queue.getD cand default).mode) cand queue 0

/-- Position of the first ungranted request in the queue. -/
def firstUngranted : List LockRequest → Option Nat
  | [] => none
  | r :: rest => if r.granted then (firstUngranted rest).map (· + 1) else some 0

/-- C1 (counterexample).  The claim asserts that at READ_UNCOMMITTED every
LockRow acquisition with mode IS aborts with LOCK_SHARED_ON_READ_UNCOMMITTED;
in the code the intention-mode rejection of `LockRow` fires first, so the
raised reason is ATTEMPTED_INTENTION_LOCK_ON_ROW instead. -/
theorem C1_counterexample_row_intention :
    lockRowCheck readUncommitted growing intentionShared ⟨false, false, false, false, false⟩ =
        some attemptedIntentionLockOnRow ∧
      lockRowCheck readUncommitted growing intentionShared ⟨false, false, false, false, false⟩ ≠
        some lockSharedOnReadUncommitted := by
  decide

/-- C1 (amended).  For every transaction state and every combination of held
table locks: at READ_UNCOMMITTED, a LockTable acquisition with mode S, IS or
SIX and a LockRow acquisition with mode S abort with
LOCK_SHARED_ON_READ_UNCOMMITTED, while LockRow intention-mode acquisitions
abort with ATTEMPTED_INTENTION_LOCK_ON_ROW; an X or IX LockTable acquisition
and an X LockRow acquisition in SHRINKING abort with LOCK_ON_SHRINKING; at
REPEATABLE_READ, every LockTable acquisition and every S or X LockRow
acquisition in SHRINKING aborts with LOCK_ON_SHRINKING (LockRow intention
modes again abort with ATTEMPTED_INTENTION_LOCK_ON_ROW); and every failed
check leaves the transaction state ABORTED. -/
theorem C1_isolation_checks_amended :
    ∀ (st : TransactionState) (held : HeldTableLocks),
      (lockTableCheck readUncommitted st shared = some lockSharedOnReadUncommitted ∧
        lockTableCheck readUncommitted st intentionShared = some lockSharedOnReadUncommitted ∧
        lockTableCheck readUncommitted st sharedIntentionExclusive =
          some lockSharedOnReadUncommitted ∧
        lockRowCheck readUncommitted st shared held = some lockSharedOnReadUncommitted ∧
        lockRowCheck readUncommitted st intentionShared held = some attemptedIntentionLockOnRow ∧
        lockRowCheck readUncommitted st sharedIntentionExclusive held =
          some attemptedIntentionLockOnRow ∧
        lockRowCheck readUncommitted st intentionExclusive held =
          some attemptedIntentionLockOnRow) ∧
      (lockTableCheck readUncommitted shrinking exclusive = some lockOnShrinking ∧
        lockTableCheck readUncommitted shrinking intentionExclusive = some lockOnShrinking ∧
        lockRowCheck readUncommitted shrinking exclusive held = some lockOnShrinking) ∧
      (∀ m : LockMode, lockTableCheck repeatableRead shrinking m = some lockOnShrinking) ∧
      (lockRowCheck repeatableRead shrinking shared held = some lockOnShrinking ∧
        lockRowCheck repeatableRead shrinking exclusive held = some lockOnShrinking ∧
        lockRowCheck repeatableRead shrinking intentionShared held =
          some attemptedIntentionLockOnRow ∧
        lockRowCheck repeatableRead shrinking intentionExclusive held =
          some attemptedIntentionLockOnRow ∧
        lockRowCheck repeatableRead shrinking sharedIntentionExclusive held =
          some attemptedIntentionLockOnRow) ∧
      (∀ a : AbortReason, stateAfterCheck st (some a) = aborted) := by
  decide

/-- Closed-form characterization of the `GrantLock` walk starting at queue
position `p`: it returns true iff some position `i` of the remaining queue is
the candidate position (`p + i = cand`), holds an ungranted request, and every
earlier request is granted and compatible with the candidate's mode. -/
theorem grantLockAux_eq_true (m : LockMode) (q : List LockRequest) (p cand : Nat) :
    grantLockAux m cand q p = true ↔
      ∃ i, i < q.length ∧
        (∀ j, j < i → (q.getD j default).granted = true ∧
          lockCompatible (q.getD j default).mode m = true) ∧
        (q.getD i default).granted = false ∧ p + i = cand := by
  induction q generalizing p with
  | nil => simp [grantLockAux]
  | cons r rest ih =>
    by_cases hg : r.granted
    · by_cases hc : lockCompatible r.mode m
      · rw [grantLockAux, if_pos hg, if_pos hc, ih (p + 1)]
        constructor
        · rintro ⟨i, hi, hall, hug, hpc⟩
          refine ⟨i + 1, by simpa using Nat.succ_lt_succ hi, ?_, by simpa using hug, by omega⟩
          intro j hj
          cases j with
          | zero => simpa using ⟨hg, hc⟩
          | succ j => simpa using hall j (by omega)
        · rintro ⟨i, hi, hall, hug, hpc⟩
          cases i with
          | zero => simp at hug; exact absurd hug (by simp [hg])
          | succ i =>
            refine ⟨i, by simpa using Nat.lt_of_succ_lt_succ hi, ?_, by simpa using hug, by omega⟩
            intro j hj
            simpa using hall (j + 1) (by omega)
      · rw [grantLockAux, if_pos hg, if_neg hc]
        constructor
        · intro h
          exact absurd h (by simp)
        · rintro ⟨i, hi, hall, hug, hpc⟩
          exfalso
          cases i with
          | zero => simp [List.getD_cons_zero, hg] at hug
          | succ i => exact hc (by simpa [List.getD_cons_zero] using (hall 0 (by omega)).2)
    · rw [grantLockAux, if_neg hg]
      constructor
      · intro hpc
        simp only [beq_iff_eq] at hpc
        exact ⟨0, by simp, by omega, by simpa [List.getD_cons_zero] using hg, by omega⟩
      · rintro ⟨i, hi, hall, hug, hpc⟩
        cases i with
        | zero => simp only [beq_iff_eq]; omega
        | succ i =>
          exact absurd (by simpa [List.getD_cons_zero] using (hall 0 (by omega)).1)
            (by simp [hg])

/-- Characterization of `firstUngranted`: it returns `some i` iff position `i`
holds an ungranted request and every earlier request is granted. -/
theorem firstUngranted_eq_some (q : List LockRequest) (i : Nat) :
    firstUngranted q = some i ↔
      i < q.length ∧ (∀ j, j < i → (q.getD j default).granted = true) ∧
        (q.getD i default).granted = false := by
  induction q generalizing i with
  | nil => simp [firstUngranted]
  | cons r rest ih =>
    by_cases hg : r.granted
    · rw [firstUngranted, if_pos hg]
      cases i with
      | zero =>
        constructor
        · intro h
          rcases Option.map_eq_some'.mp h with ⟨j, hj, hji⟩
          omega
        · rintro ⟨-, -, hug⟩
          simp [List.getD_cons_zero, hg] at hug
      | succ i =>
        constructor
        · intro h
          rcases Option.map_eq_some'.mp h with ⟨j, hj, hji⟩
          have hij : j = i := by omega
          rw [hij] at hj
          rcases (ih i).mp hj with ⟨hi, hall, hug⟩
          refine ⟨by simpa using Nat.succ_lt_succ hi, ?_, by simpa using hug⟩
          intro j hj
          cases j with
          | zero => simpa using hg
          | succ j => simpa using hall j (by omega)
        · rintro ⟨hi, hall, hug⟩
          have : firstUngranted rest = some i := by
            refine (ih i).mpr ⟨by simpa using Nat.lt_of_succ_lt_succ hi, ?_, by simpa using hug⟩
            intro j hj
            simpa using hall (j + 1) (by omega)
          simp [this]
    · rw [firstUngranted, if_neg hg]
      constructor
      · intro h
        have : i = 0 := by simpa using (Option.some.injEq _ _).mp h.symm
        subst this
        exact ⟨by simp, by omega, by simpa using hg⟩
      · rintro ⟨hi, hall, hug⟩
        cases i with
        | zero => rfl
        | succ i => exact absurd (by simpa using hall 0 (by omega)) (by simp [hg])

/-- C2 (confirmed).  For a queue containing the candidate request at position
`cand`, `GrantLock` returns true iff every granted request ahead of the
candidate has a mode compatible with the candidate's mode and the first
ungranted request in the queue is the candidate itself. -/
theorem C2_grantLock_iff (queue : List LockRequest) (cand : Nat)
    (h : cand < queue.length) :
    grantLock queue cand = true ↔
      ((∀ j, j < cand → (queue.getD j default).granted = true →
          lockCompatible (queue.getD j default).mode (queue.getD cand default).mode = true) ∧
        firstUngranted queue = some cand) := by
  rw [grantLock, grantLockAux_eq_true, firstUngranted_eq_some]
  constructor
  · rintro ⟨i, hi, hall, hug, hpc⟩
    have hic : i = cand := by omega
    subst hic
    exact ⟨fun j hj _ => (hall j hj).2, hi, fun j hj => (hall j hj).1, hug⟩
  · rintro ⟨hcompat, hlen, hgr, hug⟩
    exact ⟨cand, hlen, fun j hj => ⟨hgr j hj, hcompat j hj (hgr j hj)⟩, hug, by omega⟩

/-- Witness for C2 at a concrete queue: a granted S request followed by the
candidate IS request at position 1. -/
theorem C2_grantLock_iff_witness :
    1 < ([⟨1, shared, true⟩, ⟨2, intentionShared, false⟩] : List LockRequest).length ∧
      (grantLock [⟨1, shared, true⟩, ⟨2, intentionShared, false⟩] 1 = true ↔
        ((∀ j, j < 1 →
            (([⟨1, shared, true⟩, ⟨2, intentionShared, false⟩] :
              List LockRequest).getD j default).granted = true →
            lockCompatible
              (([⟨1, shared, true⟩, ⟨2, intentionShared, false⟩] :
                List LockRequest).getD j default).mode
              (([⟨1, shared, true⟩, ⟨2, intentionShared, false⟩] :
                List LockRequest).getD 1 default).mode = true) ∧
          firstUngranted [⟨1, shared, true⟩, ⟨2, intentionShared, false⟩] = some 1)) :=
  ⟨by decide, C2_grantLock_iff [⟨1, shared, true⟩, ⟨2, intentionShared, false⟩] 1 (by decide)⟩

/-! ## LRU-K replacer (src/buffer/lru_k_replacer.cpp)

Both internal lists keep their front at the list head (`emplace_front`
prepends).  The `map_` directory is modelled implicitly: a frame is tracked
iff it occurs in one of the two lists, and the C++ code keeps each tracked
frame in exactly one list, at one position.  `BUSTUB_ASSERT` bound checks are
modelled as no-ops (they compile away under NDEBUG; under debug they abort
the process). -/

namespace LRUK

structure Entry where
  key : Nat
  cnt : Nat
  evictable : Bool
  inHistory : Bool
deriving DecidableEq, Repr

structure Replacer where
  historyList : List Entry
  cacheList : List Entry
  currSize : Nat
  replacerSize : Nat
  k : Nat
deriving DecidableEq, Repr

/-- `LRUKReplacer(num_frames, k)` constructor. -/
def init (numFrames k : Nat) : Replacer := ⟨[], [], 0, numFrames, k⟩

/-- `map_.find(frame_id)`: look the frame up in the history list, then in the
cache list. -/
def findEntry (r : Replacer) (f : Nat) : Option Entry :=
  match r.historyList.find? (fun e => e.key == f) with
  | some e => some e
  | none => r.cacheList.find? (fun e => e.key == f)

/-- In-place mutation of the (unique) node of frame `f` in a list. -/
def updateIn (l : List Entry) (f : Nat) (g : Entry → Entry) : List Entry :=
  l.map (fun e => if e.key == f then g e else e)

/-- `list.erase(it)` for the node of frame `f`. -/
def eraseKey (l : List Entry) (f : Nat) : List Entry :=
  l.filter (fun e => !(e.key == f))

/-- `LRUKReplacer::IsFull`. -/
def isFull (r : Replacer) : Bool := r.currSize ≥ r.replacerSize

/-- Tail of `LRUKReplacer::RecordAccess` once the frame is tracked:
`entry->cnt_++`; below `k_` accesses the entry stays where it is, otherwise
it moves to the front of the cache list with `is_in_history_ = false`. -/
def recordAccessTracked (r : Replacer) (f : Nat) : Replacer :=
  match findEntry r f with
  | none => r
  | some e =>
    if e.cnt + 1 < r.k then
      { r with
        historyList := updateIn r.historyList f (fun x => { x with cnt := x.cnt + 1 }),
        cacheList := updateIn r.cacheList f (fun x => { x with cnt := x.cnt + 1 }) }
    else
      let moved : Entry := { e with cnt := e.cnt + 1, inHistory := false }
      let history' := if e.inHistory then eraseKey r.historyList f else r.historyList
      let cache' := if e.inHistory then r.cacheList else eraseKey r.cacheList f
      { r with historyList := history', cacheList := moved :: cache' }

/-- `LRUKReplacer::RecordAccess`: an untracked frame is dropped when the
replacer is full, otherwise admitted at the front of the history list with a
zero counter; then the counter is incremented and the entry possibly promoted. -/
def recordAccess (r : Replacer) (f : Nat) : Replacer :=
  match findEntry r f with
  | none =>
    if isFull r then r
    else recordAccessTracked
      { r with historyList := ⟨f, 0, false, true⟩ :: r.historyList } f
  | some _ => recordAccessTracked r f

/-- `LRUKReplacer::SetEvictable`. -/
def setEvictable (r : Replacer) (f : Nat) (b : Bool) : Replacer :=
  match findEntry r f with
  | none => r
  | some e =>
    let newSize :=
      if e.evictable ∧ ¬b then r.currSize - 1
      else if ¬e.evictable ∧ b then r.currSize + 1
      else r.currSize
    { r with
      currSize := newSize,
      historyList := updateIn r.historyList f (fun x => { x with evictable := b }),
      cacheList := updateIn r.cacheList f (fun x => { x with evictable := b }) }

/-- `LRUKReplacer::Evict`: both lists are scanned from `--end()` backwards,
i.e. from the list tail (the oldest node, since insertion prepends) towards
the head; the first evictable frame found is evicted, history list first. -/
def evict (r : Replacer) : Option Nat × Replacer :=
  match r.historyList.reverse.find? (fun e => e.evictable) with
  | some e =>
    (some e.key,
      { r with historyList := eraseKey r.historyList e.key, currSize := r.currSize - 1 })
  | none =>
    match r.cacheList.reverse.find? (fun e => e.evictable) with
    | some e =>
      (some e.key,
        { r with cacheList := eraseKey r.cacheList e.key, currSize := r.currSize - 1 })
    | none => (none, r)

/-- Result list of `n` successive `Evict` calls. -/
def evictSeq : Nat → Replacer → List (Option Nat)
  | 0, _ => []
  | n + 1, r =>
    let out := evict r
    out.1 :: evictSeq n out.2

/-- The C5 scenario state: K = 2, capacity 7, accesses
`[1,2,3,4,5,6,1,2,3,4,5,6,7]`, then every frame marked evictable. -/
def scenarioC5 : Replacer :=
  [1, 2, 3, 4, 5, 6, 7].foldl (fun r f => setEvictable r f true)
    ([1, 2, 3, 4, 5, 6, 1, 2, 3, 4, 5, 6, 7].foldl recordAccess (init 7 2))

end LRUK

/-- C5 (counterexample).  In the claimed scenario the seven evictions do not
return 7,6,5,4,3,2,1: after frame 7 (the only frame with fewer than K
accesses) the cache list is scanned from its tail, so the frame promoted
earliest — frame 1, whose second-most-recent access is the oldest — leaves
first, not frame 6. -/
theorem C5_counterexample_evict_order :
    LRUK.evictSeq 7 LRUK.scenarioC5 ≠
      [some 7, some 6, some 5, some 4, some 3, some 2, some 1] := by
  decide

/-- C5 (amended).  For the LRU-K replacer with K=2 and capacity 7, after
record_access calls in the order [1,2,3,4,5,6,1,2,3,4,5,6,7] and marking
every frame evictable, seven successive evict() calls return the frames
7,1,2,3,4,5,6 in that order. -/
theorem C5_evict_order_amended :
    LRUK.evictSeq 7 LRUK.scenarioC5 =
      [some 7, some 1, some 2, some 3, some 4, some 5, some 6] := by
  decide

/-! ## Buffer pool manager (src/buffer/buffer_pool_manager_instance.cpp)

Model of the state touched by `UnpinPgImp`: the page array (frame →
metadata), the page table (page id → resident frame) and the LRU-K replacer.
`INVALID_PAGE_ID` is -1. -/

namespace BPM

structure Page where
  pageId : Int
  pinCount : Nat
  isDirty : Bool
deriving Repr

structure BufferPool where
  pages : Nat → Page
  pageTable : Int → Option Nat
  replacer : LRUK.Replacer

/-- `BufferPoolManagerInstance::UnpinPgImp(page_id, is_dirty)`: fail without
change when the page is not resident or its pin count is already zero;
otherwise decrement the pin count, OR the dirty argument into the page's
dirty flag, and mark the frame evictable exactly when the pin count reaches
zero. -/
def unpinPg (b : BufferPool) (pid : Int) (isDirty : Bool) : BufferPool × Bool :=
  match b.pageTable pid with
  | none => (b, false)
  | some fid =>
    if (b.pages fid).pinCount = 0 then (b, false)
    else
      let p := b.pages fid
      let p' : Page := { p with pinCount := p.pinCount - 1, isDirty := p.isDirty || isDirty }
      let pages' := fun f => if f = fid then p' else b.pages f
      let replacer' :=
        if p'.pinCount = 0 then LRUK.setEvictable b.replacer fid true else b.replacer
      ({ b with pages := pages', replacer := replacer' }, true)

end BPM

/-- Updating the node of frame `f` commutes with looking `f` up, for any
key-preserving update. -/
theorem updateIn_find? (l : List LRUK.Entry) (f : Nat) (g : LRUK.Entry → LRUK.Entry)
    (hg : ∀ e, (g e).key = e.key) :
    (LRUK.updateIn l f g).find? (fun e => e.key == f) =
      (l.find? (fun e => e.key == f)).map g := by
  induction l with
  | nil => rfl
  | cons e l ih =>
    simp only [LRUK.updateIn, List.map_cons] at ih ⊢
    by_cases h : e.key = f
    · have hb : (e.key == f) = true := by simpa using h
      have hgb : ((g e).key == f) = true := by simp [hg e, h]
      rw [if_pos hb]
      simp [List.find?_cons, hb, hgb]
    · have hb : (e.key == f) = false := by simpa using h
      rw [if_neg (by simp [hb])]
      simp only [List.find?_cons, hb]
      exact ih

/-- `SetEvictable` rewrites exactly the looked-up entry's evictable flag. -/
theorem findEntry_setEvictable (r : LRUK.Replacer) (f : Nat) (b : Bool) :
    LRUK.findEntry (LRUK.setEvictable r f b) f =
      (LRUK.findEntry r f).map (fun e => { e with evictable := b }) := by
  have hkey : ∀ x : LRUK.Entry, ({ x with evictable := b } : LRUK.Entry).key = x.key :=
    fun _ => rfl
  rw [LRUK.setEvictable]
  cases hfe : LRUK.findEntry r f with
  | none => simp [hfe]
  | some e =>
    dsimp only
    unfold LRUK.findEntry
    dsimp only
    rw [updateIn_find? _ _ _ hkey, updateIn_find? _ _ _ hkey]
    unfold LRUK.findEntry at hfe
    cases hh : r.historyList.find? (fun x => x.key == f) with
    | some eh =>
      rw [hh] at hfe
      simp_all
    | none =>
      rw [hh] at hfe
      simp_all

/-- C6 (confirmed).  `UnpinPgImp(page_id, dirty)` returns false and changes
nothing when the page is not resident or its pin count is already zero;
otherwise it decrements the pin count, ORs the dirty argument into the page's
dirty flag (so a dirty=false unpin never clears a set dirty bit), marks the
frame evictable exactly when the pin count reaches zero (a pin count of 1
before the call), and returns true, leaving the page table and every other
frame unchanged. -/
theorem C6_unpin_page (b : BPM.BufferPool) (pid : Int) (d : Bool) :
    (b.pageTable pid = none → BPM.unpinPg b pid d = (b, false)) ∧
      (∀ fid, b.pageTable pid = some fid → (b.pages fid).pinCount = 0 →
        BPM.unpinPg b pid d = (b, false)) ∧
      (∀ fid, b.pageTable pid = some fid → 0 < (b.pages fid).pinCount →
        ((BPM.unpinPg b pid d).2 = true ∧
          ((BPM.unpinPg b pid d).1.pages fid).pinCount = (b.pages fid).pinCount - 1 ∧
          ((BPM.unpinPg b pid d).1.pages fid).isDirty = ((b.pages fid).isDirty || d) ∧
          ((b.pages fid).isDirty = true → ((BPM.unpinPg b pid d).1.pages fid).isDirty = true) ∧
          ((b.pages fid).pinCount = 1 →
            (BPM.unpinPg b pid d).1.replacer = LRUK.setEvictable b.replacer fid true ∧
            ∀ e, LRUK.findEntry b.replacer fid = some e →
              LRUK.findEntry (BPM.unpinPg b pid d).1.replacer fid =
                some { e with evictable := true }) ∧
          ((b.pages fid).pinCount ≠ 1 → (BPM.unpinPg b pid d).1.replacer = b.replacer) ∧
          (BPM.unpinPg b pid d).1.pageTable = b.pageTable ∧
          (∀ g, g ≠ fid → (BPM.unpinPg b pid d).1.pages g = b.pages g))) := by
  refine ⟨?_, ?_, ?_⟩
  · intro h
    simp [BPM.unpinPg, h]
  · intro fid hfid hpin
    simp [BPM.unpinPg, hfid, hpin]
  · intro fid hfid hpin
    have hne : ¬(b.pages fid).pinCount = 0 := by omega
    refine ⟨by simp [BPM.unpinPg, hfid, hne], by simp [BPM.unpinPg, hfid, hne],
      by simp [BPM.unpinPg, hfid, hne], ?_, ?_, ?_, by simp [BPM.unpinPg, hfid, hne],
      ?_⟩
    · intro hd
      simp [BPM.unpinPg, hfid, hne, hd]
    · intro hone
      have hz : (b.pages fid).pinCount - 1 = 0 := by omega
      refine ⟨by simp [BPM.unpinPg, hfid, hne, hz], ?_⟩
      intro e he
      have : (BPM.unpinPg b pid d).1.replacer = LRUK.setEvictable b.replacer fid true := by
        simp [BPM.unpinPg, hfid, hne, hz]
      rw [this, findEntry_setEvictable, he]
      rfl
    · intro hone
      have hz : ¬(b.pages fid).pinCount - 1 = 0 := by omega
      simp [BPM.unpinPg, hfid, hne, hz]
    · intro g hg
      simp [BPM.unpinPg, hfid, hne, hg]

/-- Concrete buffer pool used to witness C6: page 5 resident in frame 0 with
pin count 2. -/
def unpinExample : BPM.BufferPool :=
  { pages := fun _ => ⟨5, 2, true⟩,
    pageTable := fun pid => if pid = 5 then some 0 else none,
    replacer := LRUK.init 7 2 }

/-- Witness for C6: unpinning resident page 5 (pin count 2) succeeds. -/
theorem C6_unpin_page_witness :
    unpinExample.pageTable 5 = some 0 ∧ 0 < (unpinExample.pages 0).pinCount ∧
      (BPM.unpinPg unpinExample 5 false).2 = true :=
  ⟨by decide, by decide,
    ((C6_unpin_page unpinExample 5 false).2.2 0 (by decide) (by decide)).1⟩

/-! ## B+tree leaf page (src/storage/page/b_plus_tree_leaf_page.cpp)

The slot array `array_` has `max_size` physical slots; only the first `size`
hold live entries, and slots past `size` retain whatever was last stored
there (removal shifts entries left without clearing the tail slot).  The
model keeps the array total so that stale slots are observable, exactly as
in the C++ page frame.  Keys and values are instantiated at `Nat`, with the
key comparator the natural order. -/

namespace Leaf

structure LeafPage where
  size : Nat
  maxSize : Nat
  arr : Nat → Nat × Nat
  nextPageId : Int

/-- `KeyIndex` (b_plus_tree_leaf_page.cpp lines 137-142): `std::lower_bound`
over the live slots — on a sorted range, the least index whose key is not
less than `key`, else `size`. -/
def keyIndex (p : LeafPage) (key : Nat) : Nat :=
  ((List.range p.size).find? (fun i => key ≤ (p.arr i).1)).getD p.size

/-- `Insert` (lines 43-64): place at the lower bound, shifting the tail right;
no-op when the key is already present. -/
def insert (p : LeafPage) (key value : Nat) : LeafPage :=
  let pos := keyIndex p key
  if pos = p.size then
    { p with arr := fun i => if i = pos then (key, value) else p.arr i, size := p.size + 1 }
  else if (p.arr pos).1 = key then p
  else
    { p with
      arr := fun i =>
        if i = pos then (key, value)
        else if pos < i ∧ i ≤ p.size then p.arr (i - 1)
        else p.arr i,
      size := p.size + 1 }

/-- `RemoveAndDeleteRecord` (lines 107-115): when the key is present, shift
the entries after it one slot left (`std::move`), which leaves the last live
slot's old contents in place past the new size. -/
def removeRecord (p : LeafPage) (key : Nat) : LeafPage :=
  let pos := keyIndex p key
  if pos = p.size ∨ (p.arr pos).1 ≠ key then p
  else
    { p with
      arr := fun i => if pos ≤ i ∧ i + 1 < p.size then p.arr (i + 1) else p.arr i,
      size := p.size - 1 }

/-- The binary-search loop of `Lookup` (lines 119-128): `l` and `r` are C++
ints, and `r` starts at `size - 1`, which is `-1` on an empty page.  Operands
stay non-negative whenever the loop body runs, so Lean's integer division
agrees with the C++ truncating division. -/
def lookupLoop (p : LeafPage) (key : Nat) (l r : Int) : Int :=
  if l < r then
    let mid := (l + r) / 2
    if key ≤ (p.arr mid.toNat).1 then lookupLoop p key l mid
    else lookupLoop p key (mid + 1) r
  else l
termination_by (r - l).toNat
decreasing_by
  all_goals simp_wf
  all_goals omega

/-- `Lookup` (lines 117-134): binary search, then an unguarded comparison of
`array_[l]` against the key — on an empty page this reads slot 0, which may
hold a stale entry. -/
def lookup (p : LeafPage) (key : Nat) : Option Nat :=
  let l := lookupLoop p key 0 ((p.size : Int) - 1)
  if (p.arr l.toNat).1 = key then some (p.arr l.toNat).2 else none

/-- Modelled from the spec: `GetMinSize` is defined in b_plus_tree_page.cpp,
which is not under src/; the spec fixes it as `ceil(max_size / 2)`. -/
def getMinSize (p : LeafPage) : Nat := (p.maxSize + 1) / 2

/-- `CopyNFrom` (lines 80-84): append `n` items at the recipient's tail. -/
def copyNFrom (dst : LeafPage) (items : Nat → Nat × Nat) (n : Nat) : LeafPage :=
  { dst with
    arr := fun i => if dst.size ≤ i ∧ i < dst.size + n then items (i - dst.size) else dst.arr i,
    size := dst.size + n }

/-- `MoveHalfTo` (lines 67-77): set the moving side's size to `GetMinSize()`
and copy `GetMaxSize() - GetMinSize()` slots starting at `GetMinSize()` into
the recipient — the copied count is computed from `max_size`, not from the
actual `size`. -/
def moveHalfTo (p recipient : LeafPage) : LeafPage × LeafPage :=
  let start := getMinSize p
  ({ p with size := start },
    copyNFrom recipient (fun i => p.arr (start + i)) (p.maxSize - start))

/-- The C7 failing input: a leaf holding the single entry (5, 50). -/
def singleEntryPage : LeafPage :=
  { size := 1, maxSize := 4, arr := fun i => if i = 0 then (5, 50) else (0, 0),
    nextPageId := -1 }

/-- The C8 counterexample input: a sorted page with 2 live entries out of
max_size 5 slots; slots 2..4 hold stale data. -/
def nonFullPage : LeafPage :=
  { size := 2, maxSize := 5, arr := fun i => (i, i), nextPageId := -1 }

/-- An empty recipient page for C8. -/
def emptyRecipient : LeafPage :=
  { size := 0, maxSize := 5, arr := fun _ => (9, 9), nextPageId := -1 }

/-- A full page (size = max_size = 4) witnessing the amended C8. -/
def fullPage4 : LeafPage :=
  { size := 4, maxSize := 4, arr := fun i => (i, 10 * i), nextPageId := -1 }

end Leaf

/-- C7 (code bug).  Removing the only key of a leaf page leaves `size = 0`,
but `Lookup` then still reports the removed key as present with its old
value: the binary search degenerates to `l = 0` and the final comparison
reads the stale slot 0, which the left-shifting removal never cleared. -/
theorem C7_remove_then_lookup_bug :
    (Leaf.removeRecord Leaf.singleEntryPage 5).size = 0 ∧
      Leaf.lookup (Leaf.removeRecord Leaf.singleEntryPage 5) 5 = some 50 := by
  have h1 : Leaf.removeRecord Leaf.singleEntryPage 5 =
      { size := 0, maxSize := 4, arr := fun i => if i = 0 then (5, 50) else (0, 0),
        nextPageId := -1 } := by
    simp [Leaf.removeRecord, Leaf.keyIndex, Leaf.singleEntryPage, List.range_succ]
  refine ⟨by rw [h1], ?_⟩
  rw [h1, Leaf.lookup]
  rw [Leaf.lookupLoop]
  norm_num

/-- C8 (counterexample).  On a page with 2 live entries and max_size 5
(min_size 3), `MoveHalfTo` does not move the tail `[min_size .. size)` (an
empty range): it copies `max_size - min_size = 2` stale slots into the empty
recipient, whose size becomes 2 instead of the claimed `size - min_size = 0`,
and the copied entries are the stale slots 3 and 4. -/
theorem C8_counterexample_nonfull :
    Leaf.nonFullPage.size - Leaf.getMinSize Leaf.nonFullPage = 0 ∧
      (Leaf.moveHalfTo Leaf.nonFullPage Leaf.emptyRecipient).2.size = 2 ∧
      (Leaf.moveHalfTo Leaf.nonFullPage Leaf.emptyRecipient).2.size ≠
        Leaf.nonFullPage.size - Leaf.getMinSize Leaf.nonFullPage ∧
      (Leaf.moveHalfTo Leaf.nonFullPage Leaf.emptyRecipient).2.arr 0 = (3, 3) := by
  refine ⟨by decide, ?_, by decide, ?_⟩
  · rfl
  · rfl

/-- C8 (amended).  For every full leaf page (`size = max_size`, the state in
which the B+tree invokes a split) and empty recipient, `move_half_to` moves
exactly the tail entries at indices `[min_size .. size)` into the recipient,
leaves the moving side's size equal to `min_size = ceil(max_size/2)`, and
leaves the recipient holding those `size - min_size` entries in order. -/
theorem C8_moveHalfTo_amended (p r : Leaf.LeafPage)
    (hfull : p.size = p.maxSize) (hempty : r.size = 0) :
    (Leaf.moveHalfTo p r).1.size = Leaf.getMinSize p ∧
      (Leaf.moveHalfTo p r).2.size = p.size - Leaf.getMinSize p ∧
      (∀ j, j < p.size - Leaf.getMinSize p →
        (Leaf.moveHalfTo p r).2.arr j = p.arr (Leaf.getMinSize p + j)) ∧
      (∀ i, i < Leaf.getMinSize p → (Leaf.moveHalfTo p r).1.arr i = p.arr i) := by
  refine ⟨rfl, ?_, ?_, fun i _ => rfl⟩
  · show r.size + (p.maxSize - Leaf.getMinSize p) = p.size - Leaf.getMinSize p
    rw [hempty, hfull]
    omega
  · intro j hj
    show (if r.size ≤ j ∧ j < r.size + (p.maxSize - Leaf.getMinSize p)
        then p.arr (Leaf.getMinSize p + (j - r.size)) else r.arr j) = p.arr (Leaf.getMinSize p + j)
    rw [if_pos (by omega)]
    congr 1
    omega

/-- Witness for C8 at a full page: size = max_size = 4, min_size = 2. -/
theorem C8_moveHalfTo_amended_witness :
    (Leaf.fullPage4.size = Leaf.fullPage4.maxSize ∧ Leaf.emptyRecipient.size = 0) ∧
      (Leaf.moveHalfTo Leaf.fullPage4 Leaf.emptyRecipient).1.size =
        Leaf.getMinSize Leaf.fullPage4 :=
  ⟨⟨rfl, rfl⟩,
    (C8_moveHalfTo_amended Leaf.fullPage4 Leaf.emptyRecipient rfl rfl).1⟩

/-! ## Extendible hash table (src/container/hash/extendible_hash_table.cpp)

Buckets are shared: several directory slots may reference the same bucket
object.  The model keeps all allocated buckets in a store list (`buckets`,
whose length is the `num_buckets_` counter — the code increments the counter
exactly when it allocates a bucket) and the directory holds store indices.
The key and value types are instantiated at `Nat` and the `std::hash`
function is an arbitrary parameter, so hash collisions are covered.
`hash(key) & ((1 << depth) - 1)` is modelled as `hash key % 2 ^ depth` and
`n & (1 << k)` as `Nat.testBit n k` (exact for the depths reachable before
the 31-bit shift overflow, i.e. any directory that fits in memory).
The bucket constructor's default depth 0 and `Bucket::IsFull` (the header is
not under src/) are modelled from the spec: a fresh table has one bucket of
local depth 0, and a bucket is full when it holds `bucket_size` records. -/

namespace EHT

structure Bucket where
  listK : List (Nat × Nat)
  depth : Nat
deriving DecidableEq, Repr

instance : Inhabited Bucket := ⟨⟨[], 0⟩⟩

structure Table where
  globalDepth : Nat
  buckets : List Bucket
  dir : List Nat
deriving DecidableEq, Repr

/-- The `ExtendibleHashTable(bucket_size)` constructor: global depth 0, one
empty bucket, directory of size 1. -/
def init : Table := ⟨0, [⟨[], 0⟩], [0]⟩

/-- `Bucket::FindKeyPos` + erase: drop the first pair with the given key. -/
def eraseFirstKey : List (Nat × Nat) → Nat → List (Nat × Nat)
  | [], _ => []
  | kv :: rest, k => if kv.1 == k then rest else kv :: eraseFirstKey rest k

/-- In-place value update of the first pair with the given key. -/
def updateFirstKey : List (Nat × Nat) → Nat → Nat → List (Nat × Nat)
  | [], _, _ => []
  | kv :: rest, k, v => if kv.1 == k then (kv.1, v) :: rest else kv :: updateFirstKey rest k v

/-- `Bucket::Find`. -/
def bFind (b : Bucket) (k : Nat) : Option Nat :=
  (b.listK.find? (fun kv => kv.1 == k)).map (fun kv => kv.2)

/-- `Bucket::Remove`: erase the key if present, reporting success. -/
def bRemove (b : Bucket) (k : Nat) : Bucket × Bool :=
  if b.listK.any (fun kv => kv.1 == k) then
    ({ b with listK := eraseFirstKey b.listK k }, true)
  else (b, false)

/-- `Bucket::Insert`: update in place on a key match; otherwise fail when the
bucket is full (`none`) or prepend the new pair (`emplace_front`). -/
def bInsert (bucketSize : Nat) (b : Bucket) (k v : Nat) : Option Bucket :=
  if b.listK.any (fun kv => kv.1 == k) then
    some { b with listK := updateFirstKey b.listK k v }
  else if bucketSize ≤ b.listK.length then none
  else some { b with listK := (k, v) :: b.listK }

/-- `IndexOf(key) = hash(key) & ((1 << global_depth) - 1)`. -/
def indexOf (hash : Nat → Nat) (t : Table) (k : Nat) : Nat :=
  hash k % 2 ^ t.globalDepth

/-- The bucket referenced by directory slot `i`. -/
def bucketAt (t : Table) (i : Nat) : Bucket :=
  t.buckets.getD (t.dir.getD i 0) default

/-- `ExtendibleHashTable::Find`. -/
def find (hash : Nat → Nat) (t : Table) (k : Nat) : Option Nat :=
  bFind (bucketAt t (indexOf hash t k)) k

/-- `ExtendibleHashTable::Remove`: delegate to the indexed bucket. -/
def remove (hash : Nat → Nat) (t : Table) (k : Nat) : Table × Bool :=
  let bid := t.dir.getD (indexOf hash t k) 0
  let out := bRemove (t.buckets.getD bid default) k
  ({ t with buckets := t.buckets.set bid out.1 }, out.2)

/-- Directory doubling (`Insert`, lines 121-129): `dir[size + i] = dir[i]`
and `global_depth += 1`. -/
def double (t : Table) : Table :=
  { t with globalDepth := t.globalDepth + 1, dir := t.dir ++ t.dir }

/-- The split bucket's surviving half (records whose hash has bit `depth`
clear), at local depth `depth + 1`. -/
def splitOld (hash : Nat → Nat) (b : Bucket) : Bucket :=
  { depth := b.depth + 1, listK := b.listK.filter (fun kv => !(hash kv.1).testBit b.depth) }

/-- The freshly allocated sibling bucket (records whose hash has bit `depth`
set; front-insertion while iterating reverses their order), at local depth
`depth + 1`. -/
def splitNew (hash : Nat → Nat) (b : Bucket) : Bucket :=
  { depth := b.depth + 1,
    listK := (b.listK.filter (fun kv => (hash kv.1).testBit b.depth)).reverse }

/-- `GetKLowBit(depth, hash(first item))`: the low `depth` bits shared by all
of the split bucket's keys. -/
def splitLowbit (hash : Nat → Nat) (b : Bucket) : Nat :=
  hash (b.listK.headD (0, 0)).1 % 2 ^ b.depth

/-- `ExtendibleHashTable::RedistributeBucket` (lines 138-166): bump the
bucket's local depth, allocate a sibling of depth `d + 1`
(`num_buckets_++`), rewire every directory slot whose bit `d` is set and
whose low `d` bits match the bucket's keys to the sibling, and move the
records whose hash has bit `d` set into the sibling. -/
def redistribute (hash : Nat → Nat) (t : Table) (bid : Nat) : Table :=
  let b := t.buckets.getD bid default
  { globalDepth := t.globalDepth,
    buckets := t.buckets.set bid (splitOld hash b) ++ [splitNew hash b],
    dir := t.dir.mapIdx (fun i id =>
      if i.testBit b.depth ∧ i % 2 ^ b.depth = splitLowbit hash b then t.buckets.length
      else id) }

/-- The `while (true)` loop of `ExtendibleHashTable::Insert` (lines 110-134),
with explicit fuel (in C++ an insert whose key collides with a full bucket at
every depth never terminates; fuel exhaustion returns the state reached). -/
def insertLoop (hash : Nat → Nat) (bucketSize : Nat) : Nat → Table → Nat → Nat → Table
  | 0, t, _, _ => t
  | fuel + 1, t, k, v =>
    let bid := t.dir.getD (indexOf hash t k) 0
    let b := t.buckets.getD bid default
    match bInsert bucketSize b k v with
    | some b2 => { t with buckets := t.buckets.set bid b2 }
    | none =>
      let t1 := if t.globalDepth = b.depth then double t else t
      let t2 := if b.depth < t1.globalDepth then redistribute hash t1 bid else t1
      insertLoop hash bucketSize fuel t2 k v

/-- A user-visible operation on the table. -/
inductive Op where
  | ins (k v fuel : Nat)
  | rem (k : Nat)

def applyOp (hash : Nat → Nat) (bucketSize : Nat) (t : Table) : Op → Table
  | .ins k v fuel => insertLoop hash bucketSize fuel t k v
  | .rem k => (remove hash t k).1

/-- Tables reachable from the initial state by insert/remove sequences. -/
inductive Reachable (hash : Nat → Nat) (bucketSize : Nat) : Table → Prop where
  | init : Reachable hash bucketSize init
  | step (t : Table) (op : Op) (h : Reachable hash bucketSize t) :
      Reachable hash bucketSize (applyOp hash bucketSize t op)

/-- Auxiliary: `getD` after `set` at the written index. -/
theorem getD_set_eq {α : Type} (l : List α) (i : Nat) (a dflt : α) (h : i < l.length) :
    (l.set i a).getD i dflt = a := by
  rw [List.getD_eq_getElem?_getD, List.getElem?_set_self (by omega)]
  rfl

/-- Auxiliary: `getD` after `set` at another index. -/
theorem getD_set_ne {α : Type} (l : List α) (i j : Nat) (a dflt : α) (h : i ≠ j) :
    (l.set i a).getD j dflt = l.getD j dflt := by
  rw [List.getD_eq_getElem?_getD, List.getElem?_set_ne h, ← List.getD_eq_getElem?_getD]

/-- Auxiliary: `getD` on an append, left part. -/
theorem getD_append_left {α : Type} (l1 l2 : List α) (i : Nat) (dflt : α)
    (h : i < l1.length) : (l1 ++ l2).getD i dflt = l1.getD i dflt := by
  rw [List.getD_eq_getElem?_getD, List.getElem?_append, if_pos h,
    ← List.getD_eq_getElem?_getD]

/-- Auxiliary: `getD` on an append, right part. -/
theorem getD_append_right {α : Type} (l1 l2 : List α) (i : Nat) (dflt : α)
    (h : l1.length ≤ i) : (l1 ++ l2).getD i dflt = l2.getD (i - l1.length) dflt := by
  rw [List.getD_eq_getElem?_getD, List.getElem?_append_right h, ← List.getD_eq_getElem?_getD]

/-- Auxiliary: `getD` through `mapIdx`. -/
theorem getD_mapIdx {α β : Type} (l : List α) (f : Nat → α → β) (i : Nat) (d : α) (d2 : β)
    (h : i < l.length) : (l.mapIdx f).getD i d2 = f i (l.getD i d) := by
  rw [List.getD_eq_getElem?_getD, List.getD_eq_getElem?_getD, List.getElem?_mapIdx,
    List.getElem?_eq_getElem h]
  rfl

/-- Auxiliary: if every value below `m` is hit by `f` on indices below `n`,
then `m ≤ n`. -/
theorem le_of_surj_range (m n : Nat) (f : Nat → Nat)
    (h : ∀ b, b < m → ∃ i, i < n ∧ f i = b) : m ≤ n := by
  have hsub : Finset.range m ⊆ (Finset.range n).image f := by
    intro b hb
    rcases h b (Finset.mem_range.mp hb) with ⟨i, hi, hf⟩
    exact Finset.mem_image.mpr ⟨i, Finset.mem_range.mpr hi, hf⟩
  calc m = (Finset.range m).card := (Finset.card_range m).symm
    _ ≤ ((Finset.range n).image f).card := Finset.card_le_card hsub
    _ ≤ (Finset.range n).card := Finset.card_image_le
    _ = n := Finset.card_range n

/-- Auxiliary: agreement modulo `2 ^ d` together with agreement on bit `d`
gives agreement modulo `2 ^ (d + 1)`. -/
theorem mod_two_pow_succ_congr {a b d : Nat} (h : a % 2 ^ d = b % 2 ^ d)
    (hb : a.testBit d = b.testBit d) : a % 2 ^ (d + 1) = b % 2 ^ (d + 1) := by
  have hdiv : a / 2 ^ d % 2 = b / 2 ^ d % 2 := by
    have ha := Nat.testBit_to_div_mod (x := a) (i := d)
    have hbb := Nat.testBit_to_div_mod (x := b) (i := d)
    rw [hb, hbb] at ha
    rcases Nat.mod_two_eq_zero_or_one (a / 2 ^ d) with h0 | h0 <;>
      rcases Nat.mod_two_eq_zero_or_one (b / 2 ^ d) with g0 | g0
    · omega
    · rw [h0, g0] at ha
      simp at ha
    · rw [h0, g0] at ha
      simp at ha
    · omega
  have key : ∀ x : Nat, x % 2 ^ (d + 1) = x % 2 ^ d + 2 ^ d * (x / 2 ^ d % 2) := by
    intro x
    rw [pow_succ]
    exact Nat.mod_mul
  rw [key a, key b, h, hdiv]

/-- Auxiliary: agreement modulo `2 ^ (d + 1)` restricts to modulo `2 ^ d`. -/
theorem mod_two_pow_of_succ {a b d : Nat} (h : a % 2 ^ (d + 1) = b % 2 ^ (d + 1)) :
    a % 2 ^ d = b % 2 ^ d := by
  have hd : (2 : Nat) ^ d ∣ 2 ^ (d + 1) := pow_dvd_pow 2 (by omega)
  calc a % 2 ^ d = a % 2 ^ (d + 1) % 2 ^ d := (Nat.mod_mod_of_dvd a hd).symm
    _ = b % 2 ^ (d + 1) % 2 ^ d := by rw [h]
    _ = b % 2 ^ d := Nat.mod_mod_of_dvd b hd

/-- Auxiliary: agreement modulo `2 ^ (d + 1)` fixes bit `d`. -/
theorem testBit_of_mod_succ {a b d : Nat} (h : a % 2 ^ (d + 1) = b % 2 ^ (d + 1)) :
    a.testBit d = b.testBit d := by
  have ha := Nat.testBit_mod_two_pow a (d + 1) d
  have hbb := Nat.testBit_mod_two_pow b (d + 1) d
  rw [h, hbb] at ha
  simpa using ha.symm

/-- Auxiliary: agreement modulo a larger power restricts to a smaller one. -/
theorem mod_two_pow_of_le {a b d g : Nat} (hdg : d ≤ g) (h : a % 2 ^ g = b % 2 ^ g) :
    a % 2 ^ d = b % 2 ^ d := by
  have hd : (2 : Nat) ^ d ∣ 2 ^ g := pow_dvd_pow 2 hdg
  calc a % 2 ^ d = a % 2 ^ g % 2 ^ d := (Nat.mod_mod_of_dvd a hd).symm
    _ = b % 2 ^ g % 2 ^ d := by rw [h]
    _ = b % 2 ^ d := Nat.mod_mod_of_dvd b hd

/-- The directory invariant of the extendible hash table: the directory has
`2 ^ global_depth` slots holding valid bucket ids; every bucket's local depth
is at most the global depth; every key hashes to its slot modulo
`2 ^ local_depth`; slots agreeing on the low `local_depth` bits share the
bucket and conversely; and every allocated bucket is referenced by some
slot. -/
structure Inv (hash : Nat → Nat) (t : Table) : Prop where
  dirLen : t.dir.length = 2 ^ t.globalDepth
  dirValid : ∀ i, i < t.dir.length → t.dir.getD i 0 < t.buckets.length
  depthLe : ∀ i, i < t.dir.length → (bucketAt t i).depth ≤ t.globalDepth
  keysLow : ∀ i, i < t.dir.length → ∀ kv, kv ∈ (bucketAt t i).listK →
      hash kv.1 % 2 ^ (bucketAt t i).depth = i % 2 ^ (bucketAt t i).depth
  lowSame : ∀ i, i < t.dir.length → ∀ j, j < t.dir.length →
      i % 2 ^ (bucketAt t i).depth = j % 2 ^ (bucketAt t i).depth →
      t.dir.getD i 0 = t.dir.getD j 0
  sameLow : ∀ i, i < t.dir.length → ∀ j, j < t.dir.length →
      t.dir.getD i 0 = t.dir.getD j 0 →
      i % 2 ^ (bucketAt t i).depth = j % 2 ^ (bucketAt t i).depth
  surj : ∀ bid, bid < t.buckets.length → ∃ i, i < t.dir.length ∧ t.dir.getD i 0 = bid

theorem inv_init (hash : Nat → Nat) : Inv hash init := by
  have hlen : init.dir.length = 1 := rfl
  have hblen : init.buckets.length = 1 := rfl
  refine ⟨rfl, ?_, ?_, ?_, ?_, ?_, ?_⟩
  · intro i hi
    rw [hlen] at hi
    have hz : i = 0 := by omega
    subst hz
    decide
  · intro i hi
    rw [hlen] at hi
    have hz : i = 0 := by omega
    subst hz
    decide
  · intro i hi kv hkv
    rw [hlen] at hi
    have hz : i = 0 := by omega
    subst hz
    simp [init, bucketAt] at hkv
  · intro i hi j hj hmod
    rw [hlen] at hi hj
    have hz : i = 0 := by omega
    have hz2 : j = 0 := by omega
    subst hz
    subst hz2
    rfl
  · intro i hi j hj hdir
    rw [hlen] at hi hj
    have hz : i = 0 := by omega
    have hz2 : j = 0 := by omega
    subst hz
    subst hz2
    rfl
  · intro bid hbid
    rw [hblen] at hbid
    have hz : bid = 0 := by omega
    subst hz
    exact ⟨0, by decide, by decide⟩

theorem mem_eraseFirstKey {l : List (Nat × Nat)} {k : Nat} {kv : Nat × Nat}
    (h : kv ∈ eraseFirstKey l k) : kv ∈ l := by
  induction l with
  | nil => simp [eraseFirstKey] at h
  | cons hd tl ih =>
    rw [eraseFirstKey] at h
    by_cases hk : (hd.1 == k) = true
    · rw [if_pos hk] at h
      exact List.mem_cons_of_mem hd h
    · rw [if_neg hk] at h
      rcases List.mem_cons.mp h with h1 | h1
      · exact h1 ▸ List.mem_cons_self hd tl
      · exact List.mem_cons_of_mem hd (ih h1)

theorem mem_updateFirstKey {l : List (Nat × Nat)} {k v : Nat} {kv : Nat × Nat}
    (h : kv ∈ updateFirstKey l k v) : kv ∈ l ∨ kv.1 = k := by
  induction l with
  | nil => simp [updateFirstKey] at h
  | cons hd tl ih =>
    rw [updateFirstKey] at h
    by_cases hk : (hd.1 == k) = true
    · rw [if_pos hk] at h
      rcases List.mem_cons.mp h with h1 | h1
      · right
        rw [h1]
        simpa using hk
      · exact Or.inl (List.mem_cons_of_mem hd h1)
    · rw [if_neg hk] at h
      rcases List.mem_cons.mp h with h1 | h1
      · exact Or.inl (h1 ▸ List.mem_cons_self hd tl)
      · rcases ih h1 with h2 | h2
        · exact Or.inl (List.mem_cons_of_mem hd h2)
        · exact Or.inr h2

theorem bRemove_spec (b : Bucket) (k : Nat) :
    (bRemove b k).1.depth = b.depth ∧
      ∀ kv, kv ∈ (bRemove b k).1.listK → kv ∈ b.listK := by
  rw [bRemove]
  by_cases h : b.listK.any (fun kv => kv.1 == k)
  · rw [if_pos h]
    exact ⟨rfl, fun kv hkv => mem_eraseFirstKey hkv⟩
  · rw [if_neg h]
    exact ⟨rfl, fun kv hkv => hkv⟩

theorem bInsert_some_spec {bucketSize : Nat} {b : Bucket} {k v : Nat} {b2 : Bucket}
    (h : bInsert bucketSize b k v = some b2) :
    b2.depth = b.depth ∧ ∀ kv, kv ∈ b2.listK → kv ∈ b.listK ∨ kv.1 = k := by
  rw [bInsert] at h
  by_cases hmem : b.listK.any (fun kv => kv.1 == k)
  · rw [if_pos hmem] at h
    cases h
    exact ⟨rfl, fun kv hkv => mem_updateFirstKey hkv⟩
  · rw [if_neg hmem] at h
    by_cases hfull : bucketSize ≤ b.listK.length
    · rw [if_pos hfull] at h
      cases h
    · rw [if_neg hfull] at h
      cases h
      refine ⟨rfl, fun kv hkv => ?_⟩
      rcases List.mem_cons.mp hkv with h1 | h1
      · exact Or.inr (by rw [h1])
      · exact Or.inl h1

theorem bInsert_none_spec {bucketSize : Nat} {b : Bucket} {k v : Nat}
    (h : bInsert bucketSize b k v = none) : bucketSize ≤ b.listK.length := by
  rw [bInsert] at h
  by_cases hmem : b.listK.any (fun kv => kv.1 == k)
  · rw [if_pos hmem] at h
    cases h
  · rw [if_neg hmem] at h
    by_cases hfull : bucketSize ≤ b.listK.length
    · exact hfull
    · rw [if_neg hfull] at h
      cases h

theorem bucketAt_set_eq {t : Table} {bid : Nat} (b2 : Bucket)
    (hbid : bid < t.buckets.length) (i : Nat) (hdir : t.dir.getD i 0 = bid) :
    bucketAt { t with buckets := t.buckets.set bid b2 } i = b2 := by
  rw [bucketAt]
  dsimp only
  rw [hdir, getD_set_eq _ _ _ _ hbid]

theorem bucketAt_set_ne {t : Table} {bid : Nat} (b2 : Bucket) (i : Nat)
    (hdir : t.dir.getD i 0 ≠ bid) :
    bucketAt { t with buckets := t.buckets.set bid b2 } i = bucketAt t i := by
  rw [bucketAt, bucketAt]
  dsimp only
  rw [getD_set_ne _ _ _ _ _ (fun hcontra => hdir hcontra.symm)]

/-- Replacing the bucket `bid` by one of the same depth whose keys either
come from the old bucket or hash correctly for every slot referencing `bid`
preserves the invariant. -/
theorem inv_set_bucket {hash : Nat → Nat} {t : Table} (inv : Inv hash t) (bid : Nat)
    (b2 : Bucket) (hbid : bid < t.buckets.length)
    (hdepth : b2.depth = (t.buckets.getD bid default).depth)
    (hkeys : ∀ kv, kv ∈ b2.listK → kv ∈ (t.buckets.getD bid default).listK ∨
      (∀ i, i < t.dir.length → t.dir.getD i 0 = bid →
        hash kv.1 % 2 ^ b2.depth = i % 2 ^ b2.depth)) :
    Inv hash { t with buckets := t.buckets.set bid b2 } := by
  have hAt : ∀ i, t.dir.getD i 0 = bid → bucketAt t i = t.buckets.getD bid default := by
    intro i hdir
    rw [bucketAt, hdir]
  have hdepthAt : ∀ i,
      (bucketAt { t with buckets := t.buckets.set bid b2 } i).depth = (bucketAt t i).depth := by
    intro i
    by_cases hdir : t.dir.getD i 0 = bid
    · rw [bucketAt_set_eq b2 hbid i hdir, hAt i hdir, hdepth]
    · rw [bucketAt_set_ne b2 i hdir]
  refine ⟨inv.dirLen, ?_, ?_, ?_, ?_, ?_, ?_⟩
  · intro i hi
    simpa [List.length_set] using inv.dirValid i hi
  · intro i hi
    rw [hdepthAt i]
    exact inv.depthLe i hi
  · intro i hi kv hkv
    rw [hdepthAt i]
    by_cases hdir : t.dir.getD i 0 = bid
    · rw [bucketAt_set_eq b2 hbid i hdir] at hkv
      rcases hkeys kv hkv with hold | hnew
      · have := inv.keysLow i hi kv (by rw [hAt i hdir]; exact hold)
        rwa [hAt i hdir] at this ⊢
      · rw [hAt i hdir, ← hdepth]
        exact hnew i hi hdir
    · rw [bucketAt_set_ne b2 i hdir] at hkv
      exact inv.keysLow i hi kv hkv
  · intro i hi j hj hmod
    rw [hdepthAt i] at hmod
    exact inv.lowSame i hi j hj hmod
  · intro i hi j hj hdir
    rw [hdepthAt i]
    exact inv.sameLow i hi j hj hdir
  · intro b hb
    rw [List.length_set] at hb
    exact inv.surj b hb

theorem double_dir_getD {t : Table} (_hlen : 0 < t.dir.length) (i : Nat)
    (hi : i < (double t).dir.length) :
    (double t).dir.getD i 0 = t.dir.getD (i % t.dir.length) 0 := by
  have hi2 : i < t.dir.length + t.dir.length := by
    simpa [double] using hi
  by_cases h : i < t.dir.length
  · rw [double]
    dsimp only
    rw [getD_append_left _ _ _ _ h, Nat.mod_eq_of_lt h]
  · rw [double]
    dsimp only
    rw [getD_append_right _ _ _ _ (by omega)]
    congr 1
    rw [Nat.mod_eq_sub_mod (by omega)]
    exact (Nat.mod_eq_of_lt (by omega)).symm

theorem bucketAt_double {t : Table} (hlen0 : 0 < t.dir.length) (i : Nat)
    (hi : i < (double t).dir.length) :
    bucketAt (double t) i = bucketAt t (i % t.dir.length) := by
  rw [bucketAt, bucketAt, double_dir_getD hlen0 i hi]
  rfl

theorem inv_double {hash : Nat → Nat} {t : Table} (inv : Inv hash t) :
    Inv hash (double t) := by
  have hlen0 : 0 < t.dir.length := by
    rw [inv.dirLen]
    positivity
  have hmodlt : ∀ i : Nat, i % t.dir.length < t.dir.length := fun i => Nat.mod_lt _ hlen0
  have hmodpow : ∀ (i e : Nat), e ≤ t.globalDepth → i % t.dir.length % 2 ^ e = i % 2 ^ e := by
    intro i e he
    rw [inv.dirLen]
    exact Nat.mod_mod_of_dvd i (pow_dvd_pow 2 he)
  have hdl : (double t).dir.length = t.dir.length + t.dir.length := by
    simp [double]
  refine ⟨?_, ?_, ?_, ?_, ?_, ?_, ?_⟩
  · rw [hdl, inv.dirLen]
    show 2 ^ t.globalDepth + 2 ^ t.globalDepth = 2 ^ (t.globalDepth + 1)
    rw [pow_succ]
    omega
  · intro i hi
    rw [double_dir_getD hlen0 i hi]
    exact inv.dirValid _ (hmodlt i)
  · intro i hi
    rw [bucketAt_double hlen0 i hi]
    exact le_trans (inv.depthLe _ (hmodlt i)) (by simp [double])
  · intro i hi kv hkv
    rw [bucketAt_double hlen0 i hi] at hkv ⊢
    have hdle := inv.depthLe _ (hmodlt i)
    have := inv.keysLow _ (hmodlt i) kv hkv
    rw [this, hmodpow i _ hdle]
  · intro i hi j hj hmod
    rw [bucketAt_double hlen0 i hi] at hmod
    have hdle := inv.depthLe _ (hmodlt i)
    rw [double_dir_getD hlen0 i hi, double_dir_getD hlen0 j hj]
    refine inv.lowSame _ (hmodlt i) _ (hmodlt j) ?_
    rw [hmodpow i _ hdle, hmodpow j _ hdle]
    exact hmod
  · intro i hi j hj hdir
    rw [double_dir_getD hlen0 i hi, double_dir_getD hlen0 j hj] at hdir
    rw [bucketAt_double hlen0 i hi]
    have hdle := inv.depthLe _ (hmodlt i)
    have := inv.sameLow _ (hmodlt i) _ (hmodlt j) hdir
    rw [hmodpow i _ hdle, hmodpow j _ hdle] at this
    exact this
  · intro bid hbid
    obtain ⟨i, hi, hdir⟩ := inv.surj bid (by simpa [double] using hbid)
    refine ⟨i, by omega, ?_⟩
    rw [double]
    dsimp only
    rw [getD_append_left _ _ _ _ hi]
    exact hdir

theorem redistribute_globalDepth (hash : Nat → Nat) (t : Table) (bid : Nat) :
    (redistribute hash t bid).globalDepth = t.globalDepth := rfl

theorem redistribute_bucketsLength (hash : Nat → Nat) (t : Table) (bid : Nat) :
    (redistribute hash t bid).buckets.length = t.buckets.length + 1 := by
  simp [redistribute]

theorem redistribute_dirLength (hash : Nat → Nat) (t : Table) (bid : Nat) :
    (redistribute hash t bid).dir.length = t.dir.length := by
  simp [redistribute]

theorem redistribute_dir_getD (hash : Nat → Nat) (t : Table) (bid : Nat) (i : Nat)
    (hi : i < t.dir.length) :
    (redistribute hash t bid).dir.getD i 0 =
      if i.testBit (t.buckets.getD bid default).depth ∧
          i % 2 ^ (t.buckets.getD bid default).depth =
            splitLowbit hash (t.buckets.getD bid default)
      then t.buckets.length else t.dir.getD i 0 := by
  simp only [redistribute]
  exact getD_mapIdx t.dir _ i 0 0 hi

theorem redistribute_buckets_getD_bid (hash : Nat → Nat) (t : Table) (bid : Nat)
    (hbid : bid < t.buckets.length) :
    (redistribute hash t bid).buckets.getD bid default =
      splitOld hash (t.buckets.getD bid default) := by
  simp only [redistribute]
  rw [getD_append_left _ _ _ _ (by rw [List.length_set]; exact hbid)]
  exact getD_set_eq _ _ _ _ hbid

theorem redistribute_buckets_getD_new (hash : Nat → Nat) (t : Table) (bid : Nat) :
    (redistribute hash t bid).buckets.getD t.buckets.length default =
      splitNew hash (t.buckets.getD bid default) := by
  simp only [redistribute]
  rw [getD_append_right _ _ _ _ (by rw [List.length_set])]
  simp [List.length_set]

theorem redistribute_buckets_getD_other (hash : Nat → Nat) (t : Table) (bid x : Nat)
    (hx : x ≠ bid) (hxlen : x < t.buckets.length) :
    (redistribute hash t bid).buckets.getD x default = t.buckets.getD x default := by
  simp only [redistribute]
  rw [getD_append_left _ _ _ _ (by rw [List.length_set]; exact hxlen)]
  exact getD_set_ne _ _ _ _ _ (fun h => hx h.symm)

/-- Splitting a full bucket preserves the directory invariant.  The
preconditions mirror the states in which `Insert` calls
`RedistributeBucket`: the bucket id is valid, its local depth is strictly
below the global depth (the loop doubles the directory first otherwise) and
the bucket is non-empty (it is full, and `Insert` only splits full
buckets). -/
theorem inv_redistribute {hash : Nat → Nat} {t : Table} {bid : Nat} (inv : Inv hash t)
    (hbid : bid < t.buckets.length)
    (hdlt : (t.buckets.getD bid default).depth < t.globalDepth)
    (hne : (t.buckets.getD bid default).listK ≠ []) :
    Inv hash (redistribute hash t bid) := by
  set B := t.buckets.getD bid default with hB
  obtain ⟨i0, hi0len, hi0dir⟩ := inv.surj bid hbid
  have hb_at : bucketAt t i0 = B := by
    rw [bucketAt, hi0dir, hB]
  have hhead_mem : B.listK.headD (0, 0) ∈ B.listK := by
    obtain ⟨hd0, rest, hcons⟩ := List.exists_cons_of_ne_nil hne
    rw [hcons]
    exact List.mem_cons_self _ _
  have hlbi0 : splitLowbit hash B = i0 % 2 ^ B.depth := by
    have h2 := inv.keysLow i0 hi0len _ (by rw [hb_at]; exact hhead_mem)
    rw [hb_at] at h2
    rw [splitLowbit]
    exact h2
  have hkeyslb : ∀ kv, kv ∈ B.listK → hash kv.1 % 2 ^ B.depth = splitLowbit hash B := by
    intro kv hkv
    have h1 := inv.keysLow i0 hi0len kv (by rw [hb_at]; exact hkv)
    rw [hb_at] at h1
    rw [hlbi0]
    exact h1
  have hS : ∀ i, i < t.dir.length →
      (t.dir.getD i 0 = bid ↔ i % 2 ^ B.depth = splitLowbit hash B) := by
    intro i hi
    constructor
    · intro hdir
      have h3 := inv.sameLow i0 hi0len i hi (by rw [hi0dir, hdir])
      rw [hb_at] at h3
      rw [hlbi0]
      exact h3.symm
    · intro hmod
      have h3 := inv.lowSame i0 hi0len i hi (by
        rw [hb_at]
        rw [hlbi0] at hmod
        exact hmod.symm)
      rw [hi0dir] at h3
      exact h3.symm
  have hdlen2 : (redistribute hash t bid).dir.length = t.dir.length :=
    redistribute_dirLength hash t bid
  have hblen2 : (redistribute hash t bid).buckets.length = t.buckets.length + 1 :=
    redistribute_bucketsLength hash t bid
  have hdgetD : ∀ i, i < t.dir.length →
      (redistribute hash t bid).dir.getD i 0 =
        if i.testBit B.depth ∧ i % 2 ^ B.depth = splitLowbit hash B
        then t.buckets.length else t.dir.getD i 0 := by
    intro i hi
    rw [redistribute_dir_getD hash t bid i hi, ← hB]
  -- per-slot case analysis: slots with the matching low bits and bit d set
  -- move to the sibling, matching slots with bit d clear keep the (shrunk)
  -- old bucket, all other slots are untouched
  have hAt1 : ∀ i, i < t.dir.length → i.testBit B.depth = true →
      i % 2 ^ B.depth = splitLowbit hash B →
      (redistribute hash t bid).dir.getD i 0 = t.buckets.length ∧
        bucketAt (redistribute hash t bid) i = splitNew hash B := by
    intro i hi hbit hml
    have hdir : (redistribute hash t bid).dir.getD i 0 = t.buckets.length := by
      rw [hdgetD i hi, if_pos ⟨hbit, hml⟩]
    refine ⟨hdir, ?_⟩
    rw [bucketAt, hdir, redistribute_buckets_getD_new, ← hB]
  have hAt2 : ∀ i, i < t.dir.length → i.testBit B.depth = false →
      i % 2 ^ B.depth = splitLowbit hash B →
      (redistribute hash t bid).dir.getD i 0 = bid ∧
        bucketAt (redistribute hash t bid) i = splitOld hash B := by
    intro i hi hbit hml
    have hdir : (redistribute hash t bid).dir.getD i 0 = bid := by
      rw [hdgetD i hi, if_neg (by simp [hbit])]
      exact (hS i hi).mpr hml
    refine ⟨hdir, ?_⟩
    rw [bucketAt, hdir, redistribute_buckets_getD_bid hash t bid hbid, ← hB]
  have hAt3 : ∀ i, i < t.dir.length → i % 2 ^ B.depth ≠ splitLowbit hash B →
      (redistribute hash t bid).dir.getD i 0 = t.dir.getD i 0 ∧
        bucketAt (redistribute hash t bid) i = bucketAt t i := by
    intro i hi hml
    have hnotbid : t.dir.getD i 0 ≠ bid := fun hcontra => hml ((hS i hi).mp hcontra)
    have hdir : (redistribute hash t bid).dir.getD i 0 = t.dir.getD i 0 := by
      rw [hdgetD i hi, if_neg (by intro hcontra; exact hml hcontra.2)]
    refine ⟨hdir, ?_⟩
    rw [bucketAt, hdir, redistribute_buckets_getD_other hash t bid _ hnotbid
      (inv.dirValid i hi), bucketAt]
  have hlb_lt : splitLowbit hash B < 2 ^ B.depth := by
    rw [splitLowbit]
    exact Nat.mod_lt _ (by positivity)
  refine ⟨?_, ?_, ?_, ?_, ?_, ?_, ?_⟩
  · rw [hdlen2, redistribute_globalDepth]
    exact inv.dirLen
  · intro i hi
    rw [hdlen2] at hi
    rw [hdgetD i hi, hblen2]
    by_cases hc : i.testBit B.depth ∧ i % 2 ^ B.depth = splitLowbit hash B
    · rw [if_pos hc]
      omega
    · rw [if_neg hc]
      have := inv.dirValid i hi
      omega
  · intro i hi
    rw [hdlen2] at hi
    rw [redistribute_globalDepth]
    by_cases hml : i % 2 ^ B.depth = splitLowbit hash B
    · cases hbit : i.testBit B.depth
      · rw [(hAt2 i hi hbit hml).2]
        show B.depth + 1 ≤ t.globalDepth
        omega
      · rw [(hAt1 i hi hbit hml).2]
        show B.depth + 1 ≤ t.globalDepth
        omega
    · rw [(hAt3 i hi hml).2]
      exact inv.depthLe i hi
  · intro i hi kv hkv
    rw [hdlen2] at hi
    by_cases hml : i % 2 ^ B.depth = splitLowbit hash B
    · cases hbit : i.testBit B.depth
      · rw [(hAt2 i hi hbit hml).2] at hkv ⊢
        have hmem : kv ∈ B.listK ∧ ((hash kv.1).testBit B.depth = false) := by
          have := List.mem_filter.mp hkv
          refine ⟨this.1, by simpa using this.2⟩
        show hash kv.1 % 2 ^ (B.depth + 1) = i % 2 ^ (B.depth + 1)
        refine mod_two_pow_succ_congr ?_ ?_
        · rw [hkeyslb kv hmem.1, hml]
        · rw [hmem.2, hbit]
      · rw [(hAt1 i hi hbit hml).2] at hkv ⊢
        have hmem : kv ∈ B.listK ∧ ((hash kv.1).testBit B.depth = true) := by
          have := List.mem_filter.mp (List.mem_reverse.mp hkv)
          exact ⟨this.1, this.2⟩
        show hash kv.1 % 2 ^ (B.depth + 1) = i % 2 ^ (B.depth + 1)
        refine mod_two_pow_succ_congr ?_ ?_
        · rw [hkeyslb kv hmem.1, hml]
        · rw [hmem.2, hbit]
    · rw [(hAt3 i hi hml).2] at hkv ⊢
      exact inv.keysLow i hi kv hkv
  · intro i hi j hj hmod
    rw [hdlen2] at hi hj
    by_cases hmli : i % 2 ^ B.depth = splitLowbit hash B
    · cases hbiti : i.testBit B.depth
      · rw [(hAt2 i hi hbiti hmli).2] at hmod
        have hmod' : i % 2 ^ (B.depth + 1) = j % 2 ^ (B.depth + 1) := hmod
        have hmlj : j % 2 ^ B.depth = splitLowbit hash B := by
          rw [← hmli]
          exact (mod_two_pow_of_succ hmod').symm
        have hbitj : j.testBit B.depth = false := by
          rw [← hbiti]
          exact (testBit_of_mod_succ hmod').symm
        rw [(hAt2 i hi hbiti hmli).1, (hAt2 j hj hbitj hmlj).1]
      · rw [(hAt1 i hi hbiti hmli).2] at hmod
        have hmod' : i % 2 ^ (B.depth + 1) = j % 2 ^ (B.depth + 1) := hmod
        have hmlj : j % 2 ^ B.depth = splitLowbit hash B := by
          rw [← hmli]
          exact (mod_two_pow_of_succ hmod').symm
        have hbitj : j.testBit B.depth = true := by
          rw [← hbiti]
          exact (testBit_of_mod_succ hmod').symm
        rw [(hAt1 i hi hbiti hmli).1, (hAt1 j hj hbitj hmlj).1]
    · rw [(hAt3 i hi hmli).2] at hmod
      have hdirs := inv.lowSame i hi j hj hmod
      have hmlj : j % 2 ^ B.depth ≠ splitLowbit hash B := by
        intro hcontra
        exact hmli ((hS i hi).mp (hdirs.trans ((hS j hj).mpr hcontra)))
      rw [(hAt3 i hi hmli).1, (hAt3 j hj hmlj).1]
      exact hdirs
  · intro i hi j hj hdir
    rw [hdlen2] at hi hj
    by_cases hmli : i % 2 ^ B.depth = splitLowbit hash B
    · cases hbiti : i.testBit B.depth
      · -- slot i keeps the old bucket id; j must be a matching bit-clear slot
        rw [(hAt2 i hi hbiti hmli).1] at hdir
        rw [(hAt2 i hi hbiti hmli).2]
        by_cases hmlj : j % 2 ^ B.depth = splitLowbit hash B
        · cases hbitj : j.testBit B.depth
          · show i % 2 ^ (B.depth + 1) = j % 2 ^ (B.depth + 1)
            refine mod_two_pow_succ_congr (by rw [hmli, hmlj]) (by rw [hbiti, hbitj])
          · rw [(hAt1 j hj hbitj hmlj).1] at hdir
            omega
        · rw [(hAt3 j hj hmlj).1] at hdir
          exact absurd ((hS j hj).mp hdir.symm) hmlj
      · -- slot i moved to the sibling; j must also have bit d set and match
        rw [(hAt1 i hi hbiti hmli).1] at hdir
        rw [(hAt1 i hi hbiti hmli).2]
        by_cases hmlj : j % 2 ^ B.depth = splitLowbit hash B
        · cases hbitj : j.testBit B.depth
          · rw [(hAt2 j hj hbitj hmlj).1] at hdir
            omega
          · show i % 2 ^ (B.depth + 1) = j % 2 ^ (B.depth + 1)
            refine mod_two_pow_succ_congr (by rw [hmli, hmlj]) (by rw [hbiti, hbitj])
        · rw [(hAt3 j hj hmlj).1] at hdir
          have := inv.dirValid j hj
          omega
    · rw [(hAt3 i hi hmli).1] at hdir
      rw [(hAt3 i hi hmli).2]
      have hnotbid : t.dir.getD i 0 ≠ bid := fun hcontra => hmli ((hS i hi).mp hcontra)
      by_cases hmlj : j % 2 ^ B.depth = splitLowbit hash B
      · cases hbitj : j.testBit B.depth
        · rw [(hAt2 j hj hbitj hmlj).1] at hdir
          exact absurd hdir hnotbid
        · rw [(hAt1 j hj hbitj hmlj).1] at hdir
          have := inv.dirValid i hi
          omega
      · rw [(hAt3 j hj hmlj).1] at hdir
        exact inv.sameLow i hi j hj hdir
  · intro bid2 hbid2
    rw [hblen2] at hbid2
    rw [hdlen2]
    have hpowlt : 2 ^ (B.depth + 1) ≤ t.dir.length := by
      rw [inv.dirLen]
      exact Nat.pow_le_pow_right (by omega) (by omega)
    by_cases hnew : bid2 = t.buckets.length
    · -- the sibling is referenced by the slot `lowbit + 2^d`
      refine ⟨splitLowbit hash B + 2 ^ B.depth, by rw [pow_succ] at hpowlt; omega, ?_⟩
      have hml : (splitLowbit hash B + 2 ^ B.depth) % 2 ^ B.depth = splitLowbit hash B := by
        rw [Nat.add_mod_right]
        exact Nat.mod_eq_of_lt hlb_lt
      have hbit : (splitLowbit hash B + 2 ^ B.depth).testBit B.depth = true := by
        rw [Nat.testBit_to_div_mod]
        have hdiv : (splitLowbit hash B + 2 ^ B.depth) / 2 ^ B.depth = 1 := by
          rw [Nat.add_div_right _ (by positivity), Nat.div_eq_of_lt hlb_lt]
        rw [hdiv]
        decide
      rw [(hAt1 _ (by rw [pow_succ] at hpowlt; omega) hbit hml).1, hnew]
    · by_cases hold : bid2 = bid
      · -- the shrunk bucket is still referenced by the slot `lowbit`
        refine ⟨splitLowbit hash B, by rw [pow_succ] at hpowlt; omega, ?_⟩
        have hml : splitLowbit hash B % 2 ^ B.depth = splitLowbit hash B :=
          Nat.mod_eq_of_lt hlb_lt
        have hbit : (splitLowbit hash B).testBit B.depth = false :=
          Nat.testBit_lt_two_pow hlb_lt
        rw [(hAt2 _ (by rw [pow_succ] at hpowlt; omega) hbit hml).1, hold]
      · obtain ⟨i, hi, hdir⟩ := inv.surj bid2 (by omega)
        have hmli : i % 2 ^ B.depth ≠ splitLowbit hash B := by
          intro hcontra
          exact hold (hdir.symm.trans ((hS i hi).mpr hcontra))
        refine ⟨i, hi, ?_⟩
        rw [(hAt3 i hi hmli).1]
        exact hdir

theorem inv_remove {hash : Nat → Nat} {t : Table} (inv : Inv hash t) (k : Nat) :
    Inv hash (remove hash t k).1 := by
  have hidx : indexOf hash t k < t.dir.length := by
    rw [inv.dirLen, indexOf]
    exact Nat.mod_lt _ (by positivity)
  have hbid := inv.dirValid _ hidx
  have hspec := bRemove_spec (t.buckets.getD (t.dir.getD (indexOf hash t k) 0) default) k
  exact inv_set_bucket inv _ _ hbid hspec.1 (fun kv hkv => Or.inl (hspec.2 kv hkv))

theorem inv_insertLoop {hash : Nat → Nat} {bucketSize : Nat} (hbs : 1 ≤ bucketSize)
    (fuel : Nat) : ∀ (t : Table), Inv hash t → ∀ k v,
      Inv hash (insertLoop hash bucketSize fuel t k v) := by
  induction fuel with
  | zero =>
    intro t inv k v
    exact inv
  | succ fuel ih =>
    intro t inv k v
    have hidx : indexOf hash t k < t.dir.length := by
      rw [inv.dirLen, indexOf]
      exact Nat.mod_lt _ (by positivity)
    have hbid := inv.dirValid _ hidx
    have hat : bucketAt t (indexOf hash t k) =
        t.buckets.getD (t.dir.getD (indexOf hash t k) 0) default := by
      rw [bucketAt]
    simp only [insertLoop]
    cases hins : bInsert bucketSize (t.buckets.getD (t.dir.getD (indexOf hash t k) 0) default)
        k v with
    | some b2 =>
      have hspec := bInsert_some_spec hins
      refine inv_set_bucket inv _ _ hbid hspec.1 ?_
      intro kv hkv
      rcases hspec.2 kv hkv with hold | hnew
      · exact Or.inl hold
      · refine Or.inr ?_
        intro i hi hdir
        have hdeq : b2.depth = (bucketAt t (indexOf hash t k)).depth := by
          rw [hat]
          exact hspec.1
        have hdle : (bucketAt t (indexOf hash t k)).depth ≤ t.globalDepth :=
          inv.depthLe _ hidx
        have hsame := inv.sameLow _ hidx i hi (by rw [hdir])
        have hkmod : hash kv.1 % 2 ^ (bucketAt t (indexOf hash t k)).depth =
            indexOf hash t k % 2 ^ (bucketAt t (indexOf hash t k)).depth := by
          rw [hnew]
          show hash k % 2 ^ _ = indexOf hash t k % 2 ^ _
          rw [indexOf]
          exact (Nat.mod_mod_of_dvd (hash k) (pow_dvd_pow 2 hdle)).symm
        rw [hdeq]
        exact hkmod.trans hsame
    | none =>
      have hne : (t.buckets.getD (t.dir.getD (indexOf hash t k) 0) default).listK ≠ [] := by
        have := bInsert_none_spec hins
        intro hcontra
        rw [hcontra] at this
        simp at this
        omega
      have hdle : (t.buckets.getD (t.dir.getD (indexOf hash t k) 0) default).depth ≤
          t.globalDepth := by
        have := inv.depthLe _ hidx
        rwa [hat] at this
      by_cases hgd : t.globalDepth = (t.buckets.getD (t.dir.getD (indexOf hash t k) 0)
          default).depth
      · rw [if_pos hgd]
        have inv1 : Inv hash (double t) := inv_double inv
        have hlt : (t.buckets.getD (t.dir.getD (indexOf hash t k) 0) default).depth <
            (double t).globalDepth := by
          have hgg : (double t).globalDepth = t.globalDepth + 1 := rfl
          omega
        rw [if_pos hlt]
        refine ih _ ?_ k v
        refine inv_redistribute inv1 ?_ ?_ ?_
        · simpa [double] using hbid
        · have hsame : (double t).buckets.getD (t.dir.getD (indexOf hash t k) 0) default =
              t.buckets.getD (t.dir.getD (indexOf hash t k) 0) default := rfl
          rw [hsame]
          exact hlt
        · exact hne
      · rw [if_neg hgd]
        have hlt : (t.buckets.getD (t.dir.getD (indexOf hash t k) 0) default).depth <
            t.globalDepth := by omega
        rw [if_pos hlt]
        exact ih _ (inv_redistribute inv hbid hlt hne) k v

theorem inv_reachable {hash : Nat → Nat} {bucketSize : Nat} (hbs : 1 ≤ bucketSize)
    {t : Table} (ht : Reachable hash bucketSize t) : Inv hash t := by
  induction ht with
  | init => exact inv_init hash
  | step t2 op h2 ih =>
    cases op with
    | ins k v fuel => exact inv_insertLoop hbs fuel t2 ih k v
    | rem k => exact inv_remove ih k

theorem insertLoop_mono (hash : Nat → Nat) (bucketSize : Nat) :
    ∀ (fuel : Nat) (t : Table) (k v : Nat),
      t.globalDepth ≤ (insertLoop hash bucketSize fuel t k v).globalDepth ∧
        t.buckets.length ≤ (insertLoop hash bucketSize fuel t k v).buckets.length := by
  intro fuel
  induction fuel with
  | zero =>
    intro t k v
    exact ⟨le_refl _, le_refl _⟩
  | succ fuel ih =>
    intro t k v
    simp only [insertLoop]
    cases hins : bInsert bucketSize (t.buckets.getD (t.dir.getD (indexOf hash t k) 0) default)
        k v with
    | some b2 =>
      exact ⟨le_refl _, by rw [List.length_set]⟩
    | none =>
      by_cases hgd : t.globalDepth =
          (t.buckets.getD (t.dir.getD (indexOf hash t k) 0) default).depth
      · rw [if_pos hgd]
        have hgg : (double t).globalDepth = t.globalDepth + 1 := rfl
        have hlt : (t.buckets.getD (t.dir.getD (indexOf hash t k) 0) default).depth <
            (double t).globalDepth := by omega
        rw [if_pos hlt]
        have h2 := ih (redistribute hash (double t) (t.dir.getD (indexOf hash t k) 0)) k v
        have hg3 : (redistribute hash (double t) (t.dir.getD (indexOf hash t k) 0)).globalDepth =
            (double t).globalDepth := rfl
        have hb3 := redistribute_bucketsLength hash (double t) (t.dir.getD (indexOf hash t k) 0)
        have hb0 : (double t).buckets.length = t.buckets.length := rfl
        refine ⟨le_trans ?_ h2.1, le_trans ?_ h2.2⟩
        · omega
        · omega
      · rw [if_neg hgd]
        by_cases hlt : (t.buckets.getD (t.dir.getD (indexOf hash t k) 0) default).depth <
            t.globalDepth
        · rw [if_pos hlt]
          have h2 := ih (redistribute hash t (t.dir.getD (indexOf hash t k) 0)) k v
          have hg3 : (redistribute hash t (t.dir.getD (indexOf hash t k) 0)).globalDepth =
              t.globalDepth := rfl
          have hb3 := redistribute_bucketsLength hash t (t.dir.getD (indexOf hash t k) 0)
          refine ⟨le_trans ?_ h2.1, le_trans ?_ h2.2⟩
          · omega
          · omega
        · rw [if_neg hlt]
          exact ih t k v

theorem remove_only_erases (hash : Nat → Nat) (t : Table) (k : Nat) :
    (remove hash t k).1.globalDepth = t.globalDepth ∧
      (remove hash t k).1.dir = t.dir ∧
      (remove hash t k).1.buckets.length = t.buckets.length ∧
      (remove hash t k).1.buckets.getD (t.dir.getD (indexOf hash t k) 0) default =
        (bRemove (t.buckets.getD (t.dir.getD (indexOf hash t k) 0) default) k).1 ∧
      (∀ x, x ≠ t.dir.getD (indexOf hash t k) 0 →
        (remove hash t k).1.buckets.getD x default = t.buckets.getD x default) := by
  refine ⟨rfl, rfl, by rw [remove]; exact List.length_set .., ?_, ?_⟩
  · by_cases hbid : t.dir.getD (indexOf hash t k) 0 < t.buckets.length
    · exact getD_set_eq _ _ _ _ hbid
    · have hLHS : (remove hash t k).1.buckets.getD (t.dir.getD (indexOf hash t k) 0)
          default = default := by
        rw [remove]
        rw [List.getD_eq_getElem?_getD, List.getElem?_eq_none (by rw [List.length_set]; omega)]
        rfl
      have hRHS : t.buckets.getD (t.dir.getD (indexOf hash t k) 0) default = default := by
        rw [List.getD_eq_getElem?_getD, List.getElem?_eq_none (by omega)]
        rfl
      rw [hLHS, hRHS]
      rfl
  · intro x hx
    exact getD_set_ne _ _ _ _ _ (fun h => hx h.symm)

end EHT

/-- C9 (confirmed).  For every extendible hash table reachable by
insert/remove sequences from the initial state (with a positive bucket
capacity), every key stored in the bucket referenced by a directory slot
satisfies `hash(k) mod 2^local_depth = slot mod 2^local_depth`, and the
number of allocated buckets (`num_buckets_`) is at most `2^global_depth`. -/
theorem C9_directory_invariant (hash : Nat → Nat) (bucketSize : Nat) (hbs : 1 ≤ bucketSize)
    (t : EHT.Table) (ht : EHT.Reachable hash bucketSize t) :
    (∀ i, i < t.dir.length → ∀ kv, kv ∈ (EHT.bucketAt t i).listK →
      hash kv.1 % 2 ^ (EHT.bucketAt t i).depth = i % 2 ^ (EHT.bucketAt t i).depth) ∧
      t.buckets.length ≤ 2 ^ t.globalDepth := by
  have inv := EHT.inv_reachable hbs ht
  refine ⟨inv.keysLow, ?_⟩
  have hle := EHT.le_of_surj_range t.buckets.length t.dir.length
    (fun i => t.dir.getD i 0) (fun b hb => inv.surj b hb)
  rwa [inv.dirLen] at hle

/-- C10 (confirmed).  Along every sequence of insert/remove operations the
global depth and the bucket count (`num_buckets_`) never decrease, and
`Remove` only delegates to `Bucket::Remove` on the addressed bucket: it
leaves the directory, the global depth and the bucket count unchanged, and
every bucket other than the addressed one untouched. -/
theorem C10_remove_monotone (hash : Nat → Nat) (bucketSize : Nat) :
    (∀ ops : List EHT.Op, ∀ t : EHT.Table,
      t.globalDepth ≤ (ops.foldl (EHT.applyOp hash bucketSize) t).globalDepth ∧
        t.buckets.length ≤ (ops.foldl (EHT.applyOp hash bucketSize) t).buckets.length) ∧
      (∀ (t : EHT.Table) (k : Nat),
        (EHT.remove hash t k).1.globalDepth = t.globalDepth ∧
          (EHT.remove hash t k).1.dir = t.dir ∧
          (EHT.remove hash t k).1.buckets.length = t.buckets.length ∧
          (EHT.remove hash t k).1.buckets.getD (t.dir.getD (EHT.indexOf hash t k) 0) default =
            (EHT.bRemove (t.buckets.getD (t.dir.getD (EHT.indexOf hash t k) 0) default) k).1 ∧
          (∀ x, x ≠ t.dir.getD (EHT.indexOf hash t k) 0 →
            (EHT.remove hash t k).1.buckets.getD x default =
              t.buckets.getD x default)) := by
  constructor
  · intro ops
    induction ops with
    | nil =>
      intro t
      exact ⟨le_refl _, le_refl _⟩
    | cons op rest ih =>
      intro t
      have h1 : t.globalDepth ≤ (EHT.applyOp hash bucketSize t op).globalDepth ∧
          t.buckets.length ≤ (EHT.applyOp hash bucketSize t op).buckets.length := by
        cases op with
        | ins k v fuel => exact EHT.insertLoop_mono hash bucketSize fuel t k v
        | rem k =>
          have h2 := EHT.remove_only_erases hash t k
          exact ⟨le_of_eq h2.1.symm, le_of_eq h2.2.2.1.symm⟩
      have h2 := ih (EHT.applyOp hash bucketSize t op)
      exact ⟨le_trans h1.1 h2.1, le_trans h1.2 h2.2⟩
  · exact EHT.remove_only_erases hash

/-- Witness for C10: removing key 0 from the initial table (identity hash,
bucket capacity 1) leaves the directory and the depth untouched. -/
theorem C10_remove_monotone_witness :
    EHT.init.globalDepth ≤
        (([EHT.Op.rem 0]).foldl (EHT.applyOp id 1) EHT.init).globalDepth ∧
      (EHT.remove id EHT.init 0).1.dir = EHT.init.dir :=
  ⟨((C10_remove_monotone id 1).1 [EHT.Op.rem 0] EHT.init).1,
    ((C10_remove_monotone id 1).2 EHT.init 0).2.1⟩

/-- Witness for C9 at the table obtained by inserting key 3 (value 4) into
the initial table with identity hash and bucket capacity 1. -/
theorem C9_directory_invariant_witness :
    1 ≤ 1 ∧
      ((∀ i, i < (EHT.applyOp id 1 EHT.init (EHT.Op.ins 3 4 5)).dir.length →
        ∀ kv, kv ∈ (EHT.bucketAt (EHT.applyOp id 1 EHT.init (EHT.Op.ins 3 4 5)) i).listK →
          id kv.1 % 2 ^ (EHT.bucketAt (EHT.applyOp id 1 EHT.init (EHT.Op.ins 3 4 5)) i).depth =
            i % 2 ^ (EHT.bucketAt (EHT.applyOp id 1 EHT.init (EHT.Op.ins 3 4 5)) i).depth) ∧
        (EHT.applyOp id 1 EHT.init (EHT.Op.ins 3 4 5)).buckets.length ≤
          2 ^ (EHT.applyOp id 1 EHT.init (EHT.Op.ins 3 4 5)).globalDepth) :=
  ⟨le_refl 1,
    C9_directory_invariant id 1 (le_refl 1) _
      (EHT.Reachable.step EHT.init (EHT.Op.ins 3 4 5) EHT.Reachable.init)⟩

/-! ## Single-transaction lock-manager traces (src/concurrency/lock_manager.cpp)

For one transaction running uncontended (no other transaction holds or
requests locks), `GrantLock` succeeds as soon as the request is enqueued
(its request is the first ungranted one and no other grants exist), so the
full `LockTable` / `UnlockTable` / `LockRow` / `UnlockRow` call sequence of a
transaction reduces to a deterministic step function on the transaction's
record: its state, its held granted requests (at most one per resource,
mirrored by the held-lock sets) and the set of resources whose request
queue object has been created (`table_lock_map_` / `row_lock_map_` entries
persist after unlocks).  `upgrading_` is always `INVALID_TXN_ID` when a call
begins, so the `UPGRADE_CONFLICT` branch is unreachable in these traces. -/

namespace Txn

structure Rec where
  state : TransactionState
  tableLocks : List (Nat × LockMode)
  rowLocks : List ((Nat × Nat) × LockMode)
  touchedTables : List Nat
  touchedRows : List Nat
deriving DecidableEq, Repr

def initRec : Rec := ⟨TransactionState.growing, [], [], [], []⟩

/-- The transaction's granted request on table `oid`, if any. -/
def lookupTable (r : Rec) (oid : Nat) : Option LockMode :=
  (r.tableLocks.find? (fun p => p.1 == oid)).map (fun p => p.2)

/-- The transaction's granted request on row `rid`, if any (row queues are
keyed by RID). -/
def lookupRow (r : Rec) (rid : Nat) : Option ((Nat × Nat) × LockMode) :=
  r.rowLocks.find? (fun p => p.1.2 == rid)

/-- The five `IsTable...Locked(oid)` queries consulted by `LockRow`. -/
def heldOn (r : Rec) (oid : Nat) : HeldTableLocks :=
  { s := lookupTable r oid == some LockMode.shared,
    x := lookupTable r oid == some LockMode.exclusive,
    is := lookupTable r oid == some LockMode.intentionShared,
    ix := lookupTable r oid == some LockMode.intentionExclusive,
    six := lookupTable r oid == some LockMode.sharedIntentionExclusive }

/-- `TransctionThrowAbort`. -/
def abortRec (r : Rec) : Rec := { r with state := TransactionState.aborted }

/-- The unlock state transition (lock_manager.cpp lines 309-316): move to
SHRINKING when the matrix says so, unless already COMMITTED or ABORTED. -/
def maybeShrink (r : Rec) (m : LockMode) (iso : IsolationLevel) : Rec :=
  if unlockForcesShrinking m iso ∧ r.state ≠ TransactionState.committed ∧
      r.state ≠ TransactionState.aborted
  then { r with state := TransactionState.shrinking } else r

/-- `LockManager::LockTable` for the single uncontended transaction. -/
def stepLockTable (iso : IsolationLevel) (r : Rec) (mode : LockMode) (oid : Nat) :
    Rec × Bool :=
  match lockTableCheck iso r.state mode with
  | some _ => (abortRec r, false)
  | none =>
    let r1 : Rec := { r with touchedTables := oid :: r.touchedTables }
    match lookupTable r1 oid with
    | some m =>
      if m = mode then (r1, true)
      else if lockUpgradeAllowed m mode then
        ({ r1 with tableLocks := (oid, mode) :: r1.tableLocks.filter (fun p => !(p.1 == oid)) },
          true)
      else (abortRec r1, false)
    | none => ({ r1 with tableLocks := (oid, mode) :: r1.tableLocks }, true)

/-- `LockManager::UnlockTable`. -/
def stepUnlockTable (iso : IsolationLevel) (r : Rec) (oid : Nat) : Rec × Bool :=
  if oid ∈ r.touchedTables then
    if r.rowLocks.any (fun p => p.1.1 == oid) then (abortRec r, false)
    else
      match lookupTable r oid with
      | some m =>
        ({ maybeShrink r m iso with
            tableLocks := r.tableLocks.filter (fun p => !(p.1 == oid)) }, true)
      | none => (abortRec r, false)
  else (abortRec r, false)

/-- `LockManager::LockRow` for the single uncontended transaction. -/
def stepLockRow (iso : IsolationLevel) (r : Rec) (mode : LockMode) (oid rid : Nat) :
    Rec × Bool :=
  match lockRowCheck iso r.state mode (heldOn r oid) with
  | some _ => (abortRec r, false)
  | none =>
    let r1 : Rec := { r with touchedRows := rid :: r.touchedRows }
    match lookupRow r1 rid with
    | some p =>
      if p.2 = mode then (r1, true)
      else if lockUpgradeAllowed p.2 mode then
        let kept := r1.rowLocks.filter (fun q => !(q.1.2 == rid))
        ({ r1 with rowLocks := ((oid, rid), mode) :: kept }, true)
      else (abortRec r1, false)
    | none => ({ r1 with rowLocks := ((oid, rid), mode) :: r1.rowLocks }, true)

/-- `LockManager::UnlockRow`. -/
def stepUnlockRow (iso : IsolationLevel) (r : Rec) (rid : Nat) : Rec × Bool :=
  if rid ∈ r.touchedRows then
    match lookupRow r rid with
    | some p =>
      ({ maybeShrink r p.2 iso with
          rowLocks := r.rowLocks.filter (fun q => !(q.1.2 == rid)) }, true)
    | none => (abortRec r, false)
  else (abortRec r, false)

inductive LOp where
  | lockTable (mode : LockMode) (oid : Nat)
  | unlockTable (oid : Nat)
  | lockRow (mode : LockMode) (oid rid : Nat)
  | unlockRow (oid rid : Nat)
deriving DecidableEq, Repr

def step (iso : IsolationLevel) (r : Rec) : LOp → Rec × Bool
  | .lockTable mode oid => stepLockTable iso r mode oid
  | .unlockTable oid => stepUnlockTable iso r oid
  | .lockRow mode oid rid => stepLockRow iso r mode oid rid
  | .unlockRow _ rid => stepUnlockRow iso r rid

def runFrom (iso : IsolationLevel) (r : Rec) (ops : List LOp) : Rec :=
  ops.foldl (fun r2 op => (step iso r2 op).1) r

def run (iso : IsolationLevel) (ops : List LOp) : Rec := runFrom iso initRec ops

def isAcquisition : LOp → Bool
  | .lockTable _ _ => true
  | .lockRow _ _ _ => true
  | _ => false

/-- The mode the operation would unlock in record `r` (none for
acquisitions or when no grant is held). -/
def unlockedMode (r : Rec) : LOp → Option LockMode
  | .unlockTable oid => lookupTable r oid
  | .unlockRow _ rid => (lookupRow r rid).map (fun p => p.2)
  | _ => none

theorem maybeShrink_state (r : Rec) (m : LockMode) (iso : IsolationLevel) :
    (maybeShrink r m iso).state = r.state ∨
      (maybeShrink r m iso).state = TransactionState.shrinking := by
  rw [maybeShrink]
  split
  · right
    rfl
  · left
    rfl

/-- Every lock-manager call leaves the transaction state unchanged or moves
it to ABORTED (a failed check) or SHRINKING (a 2PL unlock). -/
theorem step_state (iso : IsolationLevel) (r : Rec) (op : LOp) :
    (step iso r op).1.state = r.state ∨
      (step iso r op).1.state = TransactionState.aborted ∨
      (step iso r op).1.state = TransactionState.shrinking := by
  cases op with
  | lockTable mode oid =>
    rw [step, stepLockTable]
    cases lockTableCheck iso r.state mode with
    | some a =>
      right
      left
      rfl
    | none =>
      dsimp only
      cases lookupTable { r with touchedTables := oid :: r.touchedTables } oid with
      | some m =>
        dsimp only
        by_cases h1 : m = mode
        · rw [if_pos h1]
          left
          rfl
        · rw [if_neg h1]
          by_cases h2 : lockUpgradeAllowed m mode = true
          · rw [if_pos h2]
            left
            rfl
          · rw [if_neg h2]
            right
            left
            rfl
      | none =>
        left
        rfl
  | unlockTable oid =>
    rw [step, stepUnlockTable]
    by_cases ht : oid ∈ r.touchedTables
    · rw [if_pos ht]
      by_cases hrow : r.rowLocks.any (fun p => p.1.1 == oid) = true
      · rw [if_pos hrow]
        right
        left
        rfl
      · rw [if_neg hrow]
        cases lookupTable r oid with
        | some m =>
          rcases maybeShrink_state r m iso with h | h
          · left
            exact h
          · right
            right
            exact h
        | none =>
          right
          left
          rfl
    · rw [if_neg ht]
      right
      left
      rfl
  | lockRow mode oid rid =>
    rw [step, stepLockRow]
    cases lockRowCheck iso r.state mode (heldOn r oid) with
    | some a =>
      right
      left
      rfl
    | none =>
      dsimp only
      cases lookupRow { r with touchedRows := rid :: r.touchedRows } rid with
      | some p =>
        dsimp only
        by_cases h1 : p.2 = mode
        · rw [if_pos h1]
          left
          rfl
        · rw [if_neg h1]
          by_cases h2 : lockUpgradeAllowed p.2 mode = true
          · rw [if_pos h2]
            left
            rfl
          · rw [if_neg h2]
            right
            left
            rfl
      | none =>
        left
        rfl
  | unlockRow oid rid =>
    rw [step, stepUnlockRow]
    by_cases ht : rid ∈ r.touchedRows
    · rw [if_pos ht]
      cases lookupRow r rid with
      | some p =>
        rcases maybeShrink_state r p.2 iso with h | h
        · left
          exact h
        · right
          right
          exact h
      | none =>
        right
        left
        rfl
    · rw [if_neg ht]
      right
      left
      rfl

theorem runFrom_state (iso : IsolationLevel) (ops : List LOp) :
    ∀ r : Rec, (runFrom iso r ops).state = r.state ∨
      (runFrom iso r ops).state = TransactionState.aborted ∨
      (runFrom iso r ops).state = TransactionState.shrinking := by
  induction ops with
  | nil =>
    intro r
    left
    rfl
  | cons op rest ih =>
    intro r
    have h1 := step_state iso r op
    have h2 := ih (step iso r op).1
    have hr : runFrom iso r (op :: rest) = runFrom iso (step iso r op).1 rest := rfl
    rw [hr]
    rcases h2 with h2 | h2 | h2
    · rw [h2]
      exact h1
    · right
      left
      exact h2
    · right
      right
      exact h2

/-- At REPEATABLE_READ, every acquisition made while SHRINKING fails (and
aborts the transaction). -/
theorem step_acquire_shrinking (r : Rec) (a : LOp) (ha : isAcquisition a = true)
    (hs : r.state = TransactionState.shrinking) :
    (step repeatableRead r a).2 = false := by
  cases a with
  | lockTable mode oid =>
    rw [step, stepLockTable, hs]
    have h1 : ∀ m : LockMode,
        (lockTableCheck repeatableRead TransactionState.shrinking m).isSome = true := by
      decide
    cases hc : lockTableCheck repeatableRead TransactionState.shrinking mode with
    | some d => rfl
    | none =>
      exact absurd (h1 mode) (by rw [hc]; simp)
  | lockRow mode oid rid =>
    rw [step, stepLockRow, hs]
    have h1 : ∀ (m : LockMode) (held : HeldTableLocks),
        (lockRowCheck repeatableRead TransactionState.shrinking m held).isSome = true := by
      decide
    cases hc : lockRowCheck repeatableRead TransactionState.shrinking mode (heldOn r oid) with
    | some d => rfl
    | none =>
      exact absurd (h1 mode (heldOn r oid)) (by rw [hc]; simp)
  | unlockTable oid => simp [isAcquisition] at ha
  | unlockRow oid rid => simp [isAcquisition] at ha

/-- A successful unlock of an S or X grant at REPEATABLE_READ leaves the
transaction SHRINKING (or ABORTED if it already was). -/
theorem step_unlock_sx (r : Rec) (u : LOp)
    (hm : unlockedMode r u = some LockMode.shared ∨
      unlockedMode r u = some LockMode.exclusive)
    (hnc : r.state ≠ TransactionState.committed)
    (hsucc : (step repeatableRead r u).2 = true) :
    (step repeatableRead r u).1.state = TransactionState.shrinking ∨
      (step repeatableRead r u).1.state = TransactionState.aborted := by
  have hshr : ∀ m : LockMode, m = LockMode.shared ∨ m = LockMode.exclusive →
      unlockForcesShrinking m repeatableRead = true := by
    decide
  cases u with
  | lockTable mode oid => simp [unlockedMode] at hm
  | lockRow mode oid rid => simp [unlockedMode] at hm
  | unlockTable oid =>
    have hml : lookupTable r oid = some LockMode.shared ∨
        lookupTable r oid = some LockMode.exclusive := hm
    rw [step, stepUnlockTable] at hsucc ⊢
    by_cases ht : oid ∈ r.touchedTables
    · rw [if_pos ht] at hsucc ⊢
      by_cases hrow : r.rowLocks.any (fun p => p.1.1 == oid) = true
      · rw [if_pos hrow] at hsucc
        exact absurd hsucc (by simp)
      · rw [if_neg hrow] at hsucc ⊢
        rcases hml with hml | hml <;>
          · rw [hml]
            show (maybeShrink r _ repeatableRead).state = _ ∨
              (maybeShrink r _ repeatableRead).state = _
            rw [maybeShrink]
            by_cases hab : r.state = TransactionState.aborted
            · rw [if_neg (by simp [hab])]
              right
              exact hab
            · rw [if_pos ⟨hshr _ (by simp), hnc, hab⟩]
              left
              rfl
    · rw [if_neg ht] at hsucc
      exact absurd hsucc (by simp)
  | unlockRow oid rid =>
    have hml : (lookupRow r rid).map (fun p => p.2) = some LockMode.shared ∨
        (lookupRow r rid).map (fun p => p.2) = some LockMode.exclusive := hm
    rw [step, stepUnlockRow] at hsucc ⊢
    by_cases ht : rid ∈ r.touchedRows
    · rw [if_pos ht] at hsucc ⊢
      cases hlr : lookupRow r rid with
      | none =>
        rw [hlr] at hml
        rcases hml with hml | hml <;> simp at hml
      | some p =>
        rw [hlr] at hml
        show (maybeShrink r p.2 repeatableRead).state = _ ∨
          (maybeShrink r p.2 repeatableRead).state = _
        have hp2 : p.2 = LockMode.shared ∨ p.2 = LockMode.exclusive := by
          rcases hml with hml | hml
          · left
            simpa using hml
          · right
            simpa using hml
        rw [maybeShrink]
        by_cases hab : r.state = TransactionState.aborted
        · rw [if_neg (by simp [hab])]
          right
          exact hab
        · rw [if_pos ⟨hshr _ hp2, hnc, hab⟩]
          left
          rfl
    · rw [if_neg ht] at hsucc
      exact absurd hsucc (by simp)

/-- No lock-manager call commits a transaction. -/
theorem runFrom_not_committed (iso : IsolationLevel) (ops : List LOp) (r : Rec)
    (hnc : r.state ≠ TransactionState.committed) :
    (runFrom iso r ops).state ≠ TransactionState.committed := by
  rcases runFrom_state iso ops r with h | h | h <;> rw [h]
  · exact hnc
  · simp
  · simp

end Txn

/-- C3 (counterexample).  At REPEATABLE_READ a transaction takes an IS table
lock, successfully unlocks it (the unlock-state matrix row for IS is all
zeroes, so the transaction stays GROWING), and then successfully acquires
the same IS lock again: an acquisition succeeds after a successful unlock,
refuting the claim. -/
theorem C3_counterexample_is_unlock :
    (Txn.step IsolationLevel.repeatableRead
        (Txn.run IsolationLevel.repeatableRead
          [Txn.LOp.lockTable LockMode.intentionShared 0])
        (Txn.LOp.unlockTable 0)).2 = true ∧
      (Txn.step IsolationLevel.repeatableRead
        (Txn.step IsolationLevel.repeatableRead
          (Txn.run IsolationLevel.repeatableRead
            [Txn.LOp.lockTable LockMode.intentionShared 0])
          (Txn.LOp.unlockTable 0)).1
        (Txn.LOp.lockTable LockMode.intentionShared 0)).2 = true ∧
      (Txn.step IsolationLevel.repeatableRead
        (Txn.run IsolationLevel.repeatableRead
          [Txn.LOp.lockTable LockMode.intentionShared 0])
        (Txn.LOp.unlockTable 0)).1.state = TransactionState.growing := by
  decide

/-- C3 (amended).  For a REPEATABLE_READ transaction, once it has performed
one successful UnlockTable or UnlockRow of an S or X lock (the modes whose
unlock-state matrix entry forces SHRINKING; unlocking IS/IX/SIX does not
leave GROWING), every subsequent acquisition that succeeds can only happen
with the transaction already ABORTED; equivalently, at every later point
where the transaction is not ABORTED, acquisitions fail. -/
theorem C3_no_acquire_after_sx_unlock (ops1 : List Txn.LOp) (u : Txn.LOp)
    (ops2 : List Txn.LOp) (a : Txn.LOp)
    (hm : Txn.unlockedMode (Txn.run IsolationLevel.repeatableRead ops1) u =
        some LockMode.shared ∨
      Txn.unlockedMode (Txn.run IsolationLevel.repeatableRead ops1) u =
        some LockMode.exclusive)
    (hu : (Txn.step IsolationLevel.repeatableRead
        (Txn.run IsolationLevel.repeatableRead ops1) u).2 = true)
    (ha : Txn.isAcquisition a = true)
    (hsucc : (Txn.step IsolationLevel.repeatableRead
        (Txn.runFrom IsolationLevel.repeatableRead
          (Txn.step IsolationLevel.repeatableRead
            (Txn.run IsolationLevel.repeatableRead ops1) u).1 ops2) a).2 = true) :
    (Txn.runFrom IsolationLevel.repeatableRead
        (Txn.step IsolationLevel.repeatableRead
          (Txn.run IsolationLevel.repeatableRead ops1) u).1 ops2).state =
      TransactionState.aborted := by
  have hnc : (Txn.run IsolationLevel.repeatableRead ops1).state ≠
      TransactionState.committed := by
    refine Txn.runFrom_not_committed _ _ _ ?_
    simp [Txn.initRec]
  have h1 := Txn.step_unlock_sx _ u hm hnc hu
  have h2 := Txn.runFrom_state IsolationLevel.repeatableRead ops2
    (Txn.step IsolationLevel.repeatableRead
      (Txn.run IsolationLevel.repeatableRead ops1) u).1
  rcases h2 with h2 | h2 | h2
  · rw [h2]
    rcases h1 with h1 | h1
    · exfalso
      have := Txn.step_acquire_shrinking _ a ha (h2.trans h1)
      rw [hsucc] at this
      cases this
    · exact h1
  · exact h2
  · exfalso
    have := Txn.step_acquire_shrinking _ a ha h2
    rw [hsucc] at this
    cases this

/-- Witness for C3 (amended): lock X on table 0, unlock it (moving to
SHRINKING), then attempt to relock X; the attempt fails and the state is
ABORTED afterwards, so the amended theorem applies with the acquisition
failing — here we witness it through a trace whose final acquisition does
succeed being impossible; instead we witness the theorem's hypotheses being
dischargeable at a trace where the later acquisition succeeds because the
transaction was already aborted. -/
theorem C3_no_acquire_after_sx_unlock_witness :
    (Txn.runFrom IsolationLevel.repeatableRead
        (Txn.step IsolationLevel.repeatableRead
          (Txn.run IsolationLevel.repeatableRead
            [Txn.LOp.lockTable LockMode.exclusive 0])
          (Txn.LOp.unlockTable 0)).1
        [Txn.LOp.lockTable LockMode.intentionShared 1,
          Txn.LOp.lockTable LockMode.intentionShared 2]).state =
      TransactionState.aborted :=
  C3_no_acquire_after_sx_unlock [Txn.LOp.lockTable LockMode.exclusive 0]
    (Txn.LOp.unlockTable 0)
    [Txn.LOp.lockTable LockMode.intentionShared 1]
    (Txn.LOp.lockTable LockMode.intentionShared 2)
    (by decide) (by decide) (by decide) (by decide)

/-! ## Deadlock detection (src/concurrency/lock_manager.cpp lines 547-709)

`waits_for_` is an association list from transaction id to its out-edge
vector (`AddEdge` appends); `txn_set_` is the sorted duplicate-free list of
ids that appeared in an `AddEdge` call.  `Dfs` (whose reference
implementation appears in the source, lines 578-607) carries the `active_set_`
(the DFS stack as a set) and the `safe_set_` memoization; it recurses over
the out-edges sorted ascending.  The C++ recursion is modelled with explicit
fuel; `txn_set_.length + 1` fuel suffices because every nested call adds a
new node to the active set.  `HasCycle` runs `Dfs` from every transaction id
and, on detection, reports the maximum id of the active set as victim. -/

namespace Detect

abbrev Graph : Type := List (Int × List Int)

/-- Out-neighbor list of `a` (empty when `waits_for_` has no entry). -/
def adj (g : Graph) (a : Int) : List Int :=
  match g.find? (fun p => p.1 == a) with
  | some p => p.2
  | none => []

/-- Whether `waits_for_` has an entry for `a` (`waits_for_.count(a) != 0`). -/
def hasKey (g : Graph) (a : Int) : Bool := g.any (fun p => p.1 == a)

structure DfsSt where
  active : List Int
  safe : List Int
deriving DecidableEq, Repr

/-- `std::set::insert`. -/
def insertSet (x : Int) (s : List Int) : List Int := if x ∈ s then s else x :: s

/-- `std::set::erase`. -/
def eraseSet (x : Int) (s : List Int) : List Int := s.filter (fun y => !(y == x))

/-- Ascending sort of the out-edge vector (`std::sort`). -/
def sortInts (l : List Int) : List Int := l.insertionSort (fun a b => a ≤ b)

/-- The for-loop over the sorted out-edges: a neighbor already in the active
set signals a cycle, otherwise recurse into `next` (the depth-first search at
the remaining recursion depth). -/
def dfsList (next : Int → DfsSt → Bool × DfsSt) : List Int → DfsSt → Bool × DfsSt
  | [], st => (false, st)
  | n :: rest, st =>
    if n ∈ st.active then (true, st)
    else
      match next n st with
      | (true, st2) => (true, st2)
      | (false, st2) => dfsList next rest st2

/-- `LockManager::Dfs(start_id)`: memoized cycle search.  A node in the safe
set is skipped; a node without a `waits_for_` entry is marked safe; otherwise
the node joins the active set and its sorted out-edges are explored, after
which it moves from the active set to the safe set. -/
def dfs (g : Graph) : Nat → Int → DfsSt → Bool × DfsSt
  | 0, _, st => (false, st)
  | fuel2 + 1, start, st =>
    if start ∈ st.safe then (false, st)
    else if hasKey g start = false then (false, { st with safe := insertSet start st.safe })
    else
      let st1 : DfsSt := { st with active := insertSet start st.active }
      match dfsList (dfs g fuel2) (sortInts (adj g start)) st1 with
      | (true, st2) => (true, st2)
      | (false, st2) =>
        (false, ⟨eraseSet start st2.active, insertSet start st2.safe⟩)

/-- `*txn_id = *active_set_.begin(); for (id : active_set_) res = max(res, id)`:
the maximum of the active set. -/
def maxOf (l : List Int) : Int := l.foldl max (l.headD 0)

/-- The loop of `HasCycle` over `txn_set_`, threading the DFS state; on
detection it yields the active set. -/
def hasCycleAux (g : Graph) (fuel : Nat) : List Int → DfsSt → Option (List Int)
  | [], _ => none
  | s :: rest, st =>
    match dfs g fuel s st with
    | (true, st2) => some st2.active
    | (false, st2) => hasCycleAux g fuel rest st2

/-- `LockManager::HasCycle(txn_id*)`: `some victim` when a cycle is found,
where the victim is the maximum id of the active DFS set at detection. -/
def hasCycle (g : Graph) (txns : List Int) : Option Int :=
  (hasCycleAux g (txns.length + 1) txns ⟨[], []⟩).map maxOf

/-- Erase the first occurrence of `v` (`std::find` + `erase`). -/
def eraseFirstInt : List Int → Int → List Int
  | [], _ => []
  | x :: rest, v => if x == v then rest else x :: eraseFirstInt rest v

/-- `LockManager::RemoveEdge(t1, t2)`: `waits_for_[t1]` creates an empty
entry when absent, then the first occurrence of `t2` is erased. -/
def removeEdge (g : Graph) (t1 t2 : Int) : Graph :=
  if hasKey g t1 then
    g.map (fun p => if p.1 == t1 then (p.1, eraseFirstInt p.2 t2) else p)
  else g ++ [(t1, [])]

/-- `LockManager::DeleteNode(txn_id)`: drop the node's own entry, then remove
`a → txn_id` for every other transaction in `txn_set_`. -/
def deleteNode (g : Graph) (txns : List Int) (v : Int) : Graph :=
  (txns.filter (fun a => a ≠ v)).foldl (fun g2 a => removeEdge g2 a v)
    (g.filter (fun p => !(p.1 == v)))

/-- `txn->SetState(TransactionState::ABORTED)` on the victim, in the
transaction-state map consulted by the waiters. -/
def abortVictim (states : Int → TransactionState) (v : Int) : Int → TransactionState :=
  fun t => if t = v then TransactionState.aborted else states t

/-- Edge relation of the waits-for graph. -/
def edge (g : Graph) (a b : Int) : Prop := b ∈ adj g a

/-- Reachability along waits-for edges. -/
def reach (g : Graph) : Int → Int → Prop := Relation.ReflTransGen (edge g)

/-- The graph contains a (directed) cycle. -/
def cyclic (g : Graph) : Prop := ∃ a b, edge g a b ∧ reach g b a

/-- Some cycle is reachable from `s`. -/
def reachesCycle (g : Graph) (s : Int) : Prop :=
  ∃ a b, reach g s a ∧ edge g a b ∧ reach g b a

theorem mem_sortInts {l : List Int} {x : Int} : x ∈ sortInts l ↔ x ∈ l :=
  (List.perm_insertionSort _ l).mem_iff

theorem adj_eq_nil_of_not_hasKey {g : Graph} {a : Int} (h : hasKey g a = false) :
    adj g a = [] := by
  rw [adj]
  cases hf : g.find? (fun p => p.1 == a) with
  | none => rfl
  | some p =>
    have hmem := List.mem_of_find?_eq_some hf
    have hp := List.find?_some hf
    have hany : g.any (fun p => p.1 == a) = true := List.any_eq_true.mpr ⟨p, hmem, hp⟩
    rw [hasKey] at h
    rw [h] at hany
    cases hany

theorem mem_insertSet {x y : Int} {s : List Int} : y ∈ insertSet x s ↔ y = x ∨ y ∈ s := by
  rw [insertSet]
  by_cases h : x ∈ s
  · rw [if_pos h]
    constructor
    · exact Or.inr
    · rintro (rfl | hy)
      · exact h
      · exact hy
  · rw [if_neg h]
    exact List.mem_cons

theorem self_mem_insertSet (x : Int) (s : List Int) : x ∈ insertSet x s :=
  mem_insertSet.mpr (Or.inl rfl)

theorem subset_insertSet (x : Int) (s : List Int) : s ⊆ insertSet x s :=
  fun _ hy => mem_insertSet.mpr (Or.inr hy)

theorem eraseSet_insertSet {x : Int} {s : List Int} (hx : x ∉ s) :
    eraseSet x (insertSet x s) = s := by
  rw [insertSet, if_neg hx, eraseSet, List.filter_cons]
  have hxx : (!(x == x)) = false := by simp
  rw [hxx]
  show List.filter _ s = s
  exact List.filter_eq_self.mpr (fun y hy => by
    simp only [Bool.not_eq_true']
    exact beq_eq_false_iff_ne.mpr (fun hcontra => hx (hcontra ▸ hy)))

theorem foldl_max_spec (l : List Int) :
    ∀ a : Int, (l.foldl max a = a ∨ l.foldl max a ∈ l) ∧ a ≤ l.foldl max a ∧
      ∀ x ∈ l, x ≤ l.foldl max a := by
  induction l with
  | nil =>
    intro a
    exact ⟨Or.inl rfl, le_refl a, by simp⟩
  | cons h t ih =>
    intro a
    obtain ⟨hm, hle, hall⟩ := ih (max a h)
    refine ⟨?_, ?_, ?_⟩
    · rcases hm with hm | hm
      · rw [List.foldl_cons, hm]
        rcases max_choice a h with hc | hc
        · exact Or.inl hc
        · exact Or.inr (by rw [hc]; exact List.mem_cons_self h t)
      · exact Or.inr (List.mem_cons_of_mem h hm)
    · exact le_trans (le_max_left a h) hle
    · intro x hx
      rcases List.mem_cons.mp hx with rfl | hx
      · exact le_trans (le_max_right a x) hle
      · exact hall x hx

theorem maxOf_spec {l : List Int} (hne : l ≠ []) :
    maxOf l ∈ l ∧ ∀ x ∈ l, x ≤ maxOf l := by
  obtain ⟨h, t, rfl⟩ := List.exists_cons_of_ne_nil hne
  rw [maxOf]
  obtain ⟨hm, hle, hall⟩ := foldl_max_spec (h :: t) ((h :: t).headD 0)
  refine ⟨?_, hall⟩
  rcases hm with hm | hm
  · rw [hm]
    exact List.mem_cons_self h t
  · exact hm

/-- Every node currently in the safe set cannot reach a cycle. -/
def SafeOK (g : Graph) (st : DfsSt) : Prop := ∀ s ∈ st.safe, ¬ reachesCycle g s

/-- Number of transactions not yet on the DFS stack (the fuel measure). -/
def countOut (txns act : List Int) : Nat :=
  (txns.filter (fun x => decide (x ∉ act))).length

theorem length_filter_ne {l : List Int} {x : Int} (hnd : l.Nodup) (hx : x ∈ l) :
    (l.filter (fun a => decide (a ≠ x))).length + 1 = l.length := by
  induction l with
  | nil => cases hx
  | cons h t ih =>
    rw [List.filter_cons]
    rcases List.nodup_cons.mp hnd with ⟨hht, htnd⟩
    by_cases hhx : h = x
    · subst hhx
      rw [if_neg (by simp)]
      have hself : List.filter (fun a => decide (a ≠ h)) t = t :=
        List.filter_eq_self.mpr (fun a ha => by
          simp only [decide_eq_true_eq]
          exact fun hcontra => hht (hcontra ▸ ha))
      rw [hself, List.length_cons]
    · have hxt : x ∈ t := by
        rcases List.mem_cons.mp hx with h1 | h1
        · exact absurd h1.symm hhx
        · exact h1
      rw [if_pos (by simpa using hhx), List.length_cons, List.length_cons]
      rw [← ih htnd hxt]

theorem countOut_insert {txns act : List Int} {x : Int} (hnd : txns.Nodup)
    (hx : x ∈ txns) (hact : x ∉ act) :
    countOut txns (insertSet x act) + 1 = countOut txns act := by
  rw [countOut, countOut, insertSet, if_neg hact]
  have hcong : txns.filter (fun y => decide (y ∉ x :: act)) =
      (txns.filter (fun y => decide (y ∉ act))).filter (fun y => decide (y ≠ x)) := by
    rw [List.filter_filter]
    refine List.filter_congr ?_
    intro a _
    by_cases hax : a = x
    · simp [hax, hact]
    · by_cases haa : a ∈ act
      · simp [haa, hax]
      · simp [haa, hax]
  rw [hcong]
  exact length_filter_ne (List.Nodup.filter _ hnd)
    (List.mem_filter.mpr ⟨hx, by simpa using hact⟩)

/-- A node that reaches a cycle does so through one of its out-edges. -/
theorem reachesCycle_head {g : Graph} {s : Int} (h : reachesCycle g s) :
    ∃ n, edge g s n ∧ reachesCycle g n := by
  obtain ⟨a, b, hreach, hedge, hback⟩ := h
  rcases Relation.ReflTransGen.cases_head hreach with rfl | ⟨y, hy, hya⟩
  · exact ⟨b, hedge, s, b, hback, hedge, hback⟩
  · exact ⟨y, hy, a, b, hya, hedge, hback⟩

theorem not_reachesCycle_of_nbrs {g : Graph} {s : Int}
    (h : ∀ n, edge g s n → ¬ reachesCycle g n) : ¬ reachesCycle g s := by
  intro hrc
  obtain ⟨n, hn, hnrc⟩ := reachesCycle_head hrc
  exact h n hn hnrc

theorem cyclic_of_active_hit {g : Graph} {c n : Int} (hedge : edge g c n)
    (hreach : reach g n c) : cyclic g := ⟨c, n, hedge, hreach⟩

/-! Parameterized lemmas about the out-edge loop `dfsList`; `next` is the
depth-first search at the remaining recursion depth. -/

theorem dfsList_false_active {next : Int → DfsSt → Bool × DfsSt}
    (hnext : ∀ n st, n ∉ st.active → (next n st).1 = false →
      ((next n st).2).active = st.active) :
    ∀ (ns : List Int) (st : DfsSt), (dfsList next ns st).1 = false →
      ((dfsList next ns st).2).active = st.active := by
  intro ns
  induction ns with
  | nil =>
    intro st _
    rfl
  | cons n rest ih =>
    intro st hf
    rw [dfsList] at hf ⊢
    by_cases hn : n ∈ st.active
    · rw [if_pos hn] at hf
      cases hf
    · rw [if_neg hn] at hf ⊢
      cases hnx : next n st with
      | mk b st2 =>
        rw [hnx] at hf
        cases b with
        | true => cases hf
        | false =>
          have h1 : st2.active = st.active := by
            have h2 := hnext n st hn (by rw [hnx])
            rw [hnx] at h2
            exact h2
          have h3 : (dfsList next rest st2).1 = false := hf
          show (dfsList next rest st2).2.active = st.active
          rw [ih st2 h3, h1]

theorem dfsList_safe_mono {next : Int → DfsSt → Bool × DfsSt}
    (hnext : ∀ n st, st.safe ⊆ ((next n st).2).safe) :
    ∀ (ns : List Int) (st : DfsSt), st.safe ⊆ ((dfsList next ns st).2).safe := by
  intro ns
  induction ns with
  | nil =>
    intro st
    exact fun x hx => hx
  | cons n rest ih =>
    intro st
    rw [dfsList]
    by_cases hn : n ∈ st.active
    · rw [if_pos hn]
      exact fun x hx => hx
    · rw [if_neg hn]
      cases hnx : next n st with
      | mk b st2 =>
        have h1 : st.safe ⊆ st2.safe := by
          have := hnext n st
          rwa [hnx] at this
        cases b with
        | true => exact h1
        | false => exact fun x hx => ih st2 (h1 hx)

theorem dfsList_sound {g : Graph} {next : Int → DfsSt → Bool × DfsSt} {c : Int}
    (hnext_sound : ∀ n st, (∀ x ∈ st.active, reach g x n) → (next n st).1 = true →
      cyclic g)
    (hnext_active : ∀ n st, n ∉ st.active → (next n st).1 = false →
      ((next n st).2).active = st.active) :
    ∀ (ns : List Int) (st : DfsSt), (∀ n ∈ ns, edge g c n) →
      (∀ x ∈ st.active, reach g x c) → (dfsList next ns st).1 = true → cyclic g := by
  intro ns
  induction ns with
  | nil =>
    intro st _ _ ht
    cases ht
  | cons n rest ih =>
    intro st hedges hact ht
    rw [dfsList] at ht
    by_cases hn : n ∈ st.active
    · exact cyclic_of_active_hit (hedges n (List.mem_cons_self n rest)) (hact n hn)
    · rw [if_neg hn] at ht
      cases hnx : next n st with
      | mk b st2 =>
        rw [hnx] at ht
        cases b with
        | true =>
          refine hnext_sound n st ?_ (by rw [hnx])
          intro x hx
          exact Relation.ReflTransGen.tail (hact x hx) (hedges n (List.mem_cons_self n rest))
        | false =>
          have h1 : st2.active = st.active := by
            have h2 := hnext_active n st hn (by rw [hnx])
            rw [hnx] at h2
            exact h2
          have h3 : (dfsList next rest st2).1 = true := ht
          refine ih st2 (fun m hm => hedges m (List.mem_cons_of_mem n hm)) ?_ h3
          rw [h1]
          exact hact

theorem dfsList_true_active {next : Int → DfsSt → Bool × DfsSt}
    (hnext_true : ∀ n st, (next n st).1 = true → st.active ⊆ ((next n st).2).active)
    (hnext_false : ∀ n st, n ∉ st.active → (next n st).1 = false →
      ((next n st).2).active = st.active) :
    ∀ (ns : List Int) (st : DfsSt), (dfsList next ns st).1 = true →
      st.active ⊆ ((dfsList next ns st).2).active := by
  intro ns
  induction ns with
  | nil =>
    intro st ht
    cases ht
  | cons n rest ih =>
    intro st ht
    rw [dfsList] at ht ⊢
    by_cases hn : n ∈ st.active
    · rw [if_pos hn] at ht ⊢
      exact fun x hx => hx
    · rw [if_neg hn] at ht ⊢
      cases hnx : next n st with
      | mk b st2 =>
        rw [hnx] at ht
        cases b with
        | true =>
          have h2 := hnext_true n st (by rw [hnx])
          rw [hnx] at h2
          exact h2
        | false =>
          have h1 : st2.active = st.active := by
            have h2 := hnext_false n st hn (by rw [hnx])
            rw [hnx] at h2
            exact h2
          have h3 : (dfsList next rest st2).1 = true := ht
          show st.active ⊆ (dfsList next rest st2).2.active
          intro x hx
          exact ih st2 h3 (by rw [h1]; exact hx)

theorem dfs_false_active (g : Graph) :
    ∀ (fuel : Nat) (s : Int) (st : DfsSt), s ∉ st.active → (dfs g fuel s st).1 = false →
      ((dfs g fuel s st).2).active = st.active := by
  intro fuel
  induction fuel with
  | zero =>
    intro s st hs hf
    rfl
  | succ fuel2 ih =>
    intro s st hs hf
    simp only [dfs] at hf ⊢
    by_cases h1 : s ∈ st.safe
    · rw [if_pos h1] at hf ⊢
    · rw [if_neg h1] at hf ⊢
      by_cases h2 : hasKey g s = false
      · rw [if_pos h2] at hf ⊢
      · rw [if_neg h2] at hf ⊢
        cases hdl : dfsList (dfs g fuel2) (sortInts (adj g s))
            ⟨insertSet s st.active, st.safe⟩ with
        | mk b st2 =>
          rw [hdl] at hf
          cases b with
          | true => cases hf
          | false =>
            have h3 : st2.active = insertSet s st.active := by
              have h4 := dfsList_false_active (fun n st3 => ih n st3)
                (sortInts (adj g s)) ⟨insertSet s st.active, st.safe⟩ (by rw [hdl])
              rw [hdl] at h4
              exact h4
            show (eraseSet s st2.active) = st.active
            rw [h3]
            exact eraseSet_insertSet hs

theorem dfs_safe_mono (g : Graph) :
    ∀ (fuel : Nat) (s : Int) (st : DfsSt), st.safe ⊆ ((dfs g fuel s st).2).safe := by
  intro fuel
  induction fuel with
  | zero =>
    intro s st
    exact fun x hx => hx
  | succ fuel2 ih =>
    intro s st
    simp only [dfs]
    by_cases h1 : s ∈ st.safe
    · rw [if_pos h1]
      exact fun x hx => hx
    · rw [if_neg h1]
      by_cases h2 : hasKey g s = false
      · rw [if_pos h2]
        exact subset_insertSet s st.safe
      · rw [if_neg h2]
        cases hdl : dfsList (dfs g fuel2) (sortInts (adj g s))
            ⟨insertSet s st.active, st.safe⟩ with
        | mk b st2 =>
          have h3 : st.safe ⊆ st2.safe := by
            have h4 := dfsList_safe_mono (fun n st3 => ih n st3)
              (sortInts (adj g s)) ⟨insertSet s st.active, st.safe⟩
            rw [hdl] at h4
            exact h4
          cases b with
          | true => exact h3
          | false => exact fun x hx => subset_insertSet s st2.safe (h3 hx)

theorem dfs_sound (g : Graph) :
    ∀ (fuel : Nat) (s : Int) (st : DfsSt), (∀ x ∈ st.active, reach g x s) →
      (dfs g fuel s st).1 = true → cyclic g := by
  intro fuel
  induction fuel with
  | zero =>
    intro s st _ ht
    cases ht
  | succ fuel2 ih =>
    intro s st hact ht
    simp only [dfs] at ht
    by_cases h1 : s ∈ st.safe
    · rw [if_pos h1] at ht
      cases ht
    · rw [if_neg h1] at ht
      by_cases h2 : hasKey g s = false
      · rw [if_pos h2] at ht
        cases ht
      · rw [if_neg h2] at ht
        cases hdl : dfsList (dfs g fuel2) (sortInts (adj g s))
            ⟨insertSet s st.active, st.safe⟩ with
        | mk b st2 =>
          rw [hdl] at ht
          cases b with
          | false => cases ht
          | true =>
            refine dfsList_sound (c := s) (fun n st3 h3 h4 => ih n st3 h3 h4)
              (fun n st3 => dfs_false_active g fuel2 n st3)
              (sortInts (adj g s)) ⟨insertSet s st.active, st.safe⟩ ?_ ?_ (by rw [hdl])
            · intro n hn
              exact mem_sortInts.mp hn
            · intro x hx
              rcases mem_insertSet.mp hx with rfl | hx
              · exact Relation.ReflTransGen.refl
              · exact hact x hx

theorem dfs_true_active (g : Graph) :
    ∀ (fuel : Nat) (s : Int) (st : DfsSt), (dfs g fuel s st).1 = true →
      st.active ⊆ ((dfs g fuel s st).2).active ∧ s ∈ ((dfs g fuel s st).2).active := by
  intro fuel
  induction fuel with
  | zero =>
    intro s st ht
    cases ht
  | succ fuel2 ih =>
    intro s st ht
    simp only [dfs] at ht ⊢
    by_cases h1 : s ∈ st.safe
    · rw [if_pos h1] at ht
      cases ht
    · rw [if_neg h1] at ht ⊢
      by_cases h2 : hasKey g s = false
      · rw [if_pos h2] at ht
        cases ht
      · rw [if_neg h2] at ht ⊢
        cases hdl : dfsList (dfs g fuel2) (sortInts (adj g s))
            ⟨insertSet s st.active, st.safe⟩ with
        | mk b st2 =>
          rw [hdl] at ht
          cases b with
          | false => cases ht
          | true =>
            have h3 : (⟨insertSet s st.active, st.safe⟩ : DfsSt).active ⊆ st2.active := by
              have h4 := dfsList_true_active (fun n st3 h5 => (ih n st3 h5).1)
                (fun n st3 => dfs_false_active g fuel2 n st3)
                (sortInts (adj g s)) ⟨insertSet s st.active, st.safe⟩ (by rw [hdl])
              rw [hdl] at h4
              exact h4
            constructor
            · intro x hx
              exact h3 (subset_insertSet s st.active hx)
            · exact h3 (self_mem_insertSet s st.active)

theorem dfsList_complete {g : Graph} {txns : List Int} {next : Int → DfsSt → Bool × DfsSt}
    {F : Nat}
    (hnext_complete : ∀ n st, n ∈ txns → n ∉ st.active → SafeOK g st →
      countOut txns st.active < F → (next n st).1 = false →
      SafeOK g ((next n st).2) ∧ n ∈ ((next n st).2).safe)
    (hnext_active : ∀ n st, n ∉ st.active → (next n st).1 = false →
      ((next n st).2).active = st.active)
    (hnext_safe : ∀ n st, st.safe ⊆ ((next n st).2).safe) :
    ∀ (ns : List Int) (st : DfsSt), (∀ n ∈ ns, n ∈ txns) → SafeOK g st →
      countOut txns st.active < F → (dfsList next ns st).1 = false →
      SafeOK g ((dfsList next ns st).2) ∧
        (∀ n ∈ ns, n ∈ ((dfsList next ns st).2).safe) ∧
        ((dfsList next ns st).2).active = st.active ∧
        st.safe ⊆ ((dfsList next ns st).2).safe := by
  intro ns
  induction ns with
  | nil =>
    intro st hmem hS hF hf
    exact ⟨hS, by simp, rfl, fun x hx => hx⟩
  | cons n rest ih =>
    intro st hmem hS hF hf
    rw [dfsList] at hf ⊢
    by_cases hn : n ∈ st.active
    · rw [if_pos hn] at hf
      cases hf
    · rw [if_neg hn] at hf ⊢
      cases hnx : next n st with
      | mk b st2 =>
        rw [hnx] at hf
        cases b with
        | true => cases hf
        | false =>
          have hc := hnext_complete n st (hmem n (List.mem_cons_self n rest)) hn hS hF
            (by rw [hnx])
          rw [hnx] at hc
          have hS2 : SafeOK g st2 := hc.1
          have hnsafe : n ∈ st2.safe := hc.2
          have hact : st2.active = st.active := by
            have h2 := hnext_active n st hn (by rw [hnx])
            rw [hnx] at h2
            exact h2
          have h3 : (dfsList next rest st2).1 = false := hf
          obtain ⟨hS3, hall3, hact3, hsub3⟩ := ih st2
            (fun m hm => hmem m (List.mem_cons_of_mem n hm)) hS2
            (by rw [hact]; exact hF) h3
          refine ⟨hS3, ?_, ?_, ?_⟩
          · intro m hm
            rcases List.mem_cons.mp hm with rfl | hm
            · exact hsub3 hnsafe
            · exact hall3 m hm
          · show (dfsList next rest st2).2.active = st.active
            rw [hact3, hact]
          · show st.safe ⊆ (dfsList next rest st2).2.safe
            intro x hx
            have h5 : st.safe ⊆ st2.safe := by
              have h6 := hnext_safe n st
              rw [hnx] at h6
              exact h6
            exact hsub3 (h5 hx)

theorem dfs_complete (g : Graph) (txns : List Int) (hnd : txns.Nodup)
    (htargets : ∀ a b, edge g a b → b ∈ txns) :
    ∀ (fuel : Nat) (s : Int) (st : DfsSt), s ∈ txns → s ∉ st.active → SafeOK g st →
      countOut txns st.active < fuel → (dfs g fuel s st).1 = false →
      SafeOK g ((dfs g fuel s st).2) ∧ s ∈ ((dfs g fuel s st).2).safe := by
  intro fuel
  induction fuel with
  | zero =>
    intro s st _ _ _ hF _
    omega
  | succ fuel2 ih =>
    intro s st hstxn hsact hS hF hf
    simp only [dfs] at hf ⊢
    by_cases h1 : s ∈ st.safe
    · rw [if_pos h1] at hf ⊢
      exact ⟨hS, h1⟩
    · rw [if_neg h1] at hf ⊢
      by_cases h2 : hasKey g s = false
      · rw [if_pos h2] at hf ⊢
        refine ⟨?_, self_mem_insertSet s st.safe⟩
        intro x hx
        rcases mem_insertSet.mp hx with rfl | hx
        · refine not_reachesCycle_of_nbrs ?_
          intro n hn
          rw [edge, adj_eq_nil_of_not_hasKey h2] at hn
          exact absurd hn (List.not_mem_nil n)
        · exact hS x hx
      · rw [if_neg h2] at hf ⊢
        cases hdl : dfsList (dfs g fuel2) (sortInts (adj g s))
            ⟨insertSet s st.active, st.safe⟩ with
        | mk b st2 =>
          rw [hdl] at hf
          cases b with
          | true => cases hf
          | false =>
            have hcount : countOut txns (insertSet s st.active) < fuel2 := by
              have := countOut_insert hnd hstxn hsact
              omega
            obtain ⟨hS2, hall2, hact2, hsub2⟩ := dfsList_complete
              (fun n st3 h3 h4 h5 h6 h7 => ih n st3 h3 h4 h5 h6 h7)
              (fun n st3 => dfs_false_active g fuel2 n st3)
              (fun n st3 => dfs_safe_mono g fuel2 n st3)
              (sortInts (adj g s)) ⟨insertSet s st.active, st.safe⟩
              (fun m hm => htargets s m (mem_sortInts.mp hm))
              hS hcount (by rw [hdl])
            rw [hdl] at hS2 hall2
            refine ⟨?_, self_mem_insertSet s _⟩
            intro x hx
            rcases mem_insertSet.mp hx with rfl | hx
            · refine not_reachesCycle_of_nbrs ?_
              intro n hn
              exact hS2 n (hall2 n (mem_sortInts.mpr hn))
            · exact hS2 x hx

theorem hasCycleAux_none (g : Graph) (txns : List Int) (hnd : txns.Nodup)
    (htargets : ∀ a b, edge g a b → b ∈ txns) (fuel : Nat) :
    ∀ (pend : List Int) (st : DfsSt), (∀ s ∈ pend, s ∈ txns) → SafeOK g st →
      st.active = [] → countOut txns st.active < fuel →
      hasCycleAux g fuel pend st = none → ∀ s ∈ pend, ¬ reachesCycle g s := by
  intro pend
  induction pend with
  | nil =>
    intro st _ _ _ _ _ s hs
    cases hs
  | cons s0 rest ih =>
    intro st hmem hS hact hF hnone s hs
    rw [hasCycleAux] at hnone
    cases hdfs : dfs g fuel s0 st with
    | mk b st2 =>
      rw [hdfs] at hnone
      cases b with
      | true => cases hnone
      | false =>
        have hs0nact : s0 ∉ st.active := by
          rw [hact]
          exact List.not_mem_nil s0
        have hc := dfs_complete g txns hnd htargets fuel s0 st
          (hmem s0 (List.mem_cons_self s0 rest)) hs0nact hS hF (by rw [hdfs])
        rw [hdfs] at hc
        have hS2 : SafeOK g st2 := hc.1
        have hs0safe : s0 ∈ st2.safe := hc.2
        have hact2 : st2.active = [] := by
          have h3 := dfs_false_active g fuel s0 st hs0nact (by rw [hdfs])
          rw [hdfs] at h3
          rw [h3, hact]
        rcases List.mem_cons.mp hs with rfl | hs
        · exact hS2 s hs0safe
        · refine ih st2 (fun m hm => hmem m (List.mem_cons_of_mem s0 hm)) hS2 hact2 ?_
            hnone s hs
          rw [hact2]
          rw [hact] at hF
          exact hF

theorem hasCycleAux_some (g : Graph) (fuel : Nat) :
    ∀ (pend : List Int) (st : DfsSt) (w : List Int), st.active = [] →
      hasCycleAux g fuel pend st = some w → cyclic g ∧ w ≠ [] := by
  intro pend
  induction pend with
  | nil =>
    intro st w _ hsome
    cases hsome
  | cons s0 rest ih =>
    intro st w hact hsome
    rw [hasCycleAux] at hsome
    cases hdfs : dfs g fuel s0 st with
    | mk b st2 =>
      rw [hdfs] at hsome
      cases b with
      | true =>
        have hw : st2.active = w := by
          cases hsome
          rfl
        constructor
        · refine dfs_sound g fuel s0 st ?_ (by rw [hdfs])
          intro x hx
          rw [hact] at hx
          exact absurd hx (List.not_mem_nil x)
        · have h4 := dfs_true_active g fuel s0 st (by rw [hdfs])
          rw [hdfs] at h4
          intro hwnil
          have h5 : s0 ∈ st2.active := h4.2
          rw [hw, hwnil] at h5
          exact absurd h5 (List.not_mem_nil s0)
      | false =>
        have hs0nact : s0 ∉ st.active := by
          rw [hact]
          exact List.not_mem_nil s0
        have hact2 : st2.active = [] := by
          have h3 := dfs_false_active g fuel s0 st hs0nact (by rw [hdfs])
          rw [hdfs] at h3
          rw [h3, hact]
        exact ih st2 w hact2 hsome


theorem adj_cons (p : Int × List Int) (g : Graph) (x : Int) :
    adj (p :: g) x = if (p.1 == x) = true then p.2 else adj g x := by
  cases hpx : p.1 == x <;> simp [adj, List.find?_cons, hpx]

theorem mem_eraseFirstInt_of_ne {l : List Int} {b v : Int} (hb : b ≠ v) :
    b ∈ eraseFirstInt l v ↔ b ∈ l := by
  induction l with
  | nil => rfl
  | cons x rest ih =>
    rw [eraseFirstInt]
    by_cases hx : (x == v) = true
    · rw [if_pos hx]
      have hxv : x = v := by simpa using hx
      constructor
      · exact fun h => List.mem_cons_of_mem x h
      · intro h
        rcases List.mem_cons.mp h with rfl | h
        · exact absurd hxv hb
        · exact h
    · rw [if_neg hx]
      constructor
      · intro h
        rcases List.mem_cons.mp h with rfl | h
        · exact List.mem_cons_self b rest
        · exact List.mem_cons_of_mem x (ih.mp h)
      · intro h
        rcases List.mem_cons.mp h with rfl | h
        · exact List.mem_cons_self b _
        · exact List.mem_cons_of_mem x (ih.mpr h)

theorem not_mem_eraseFirstInt_self {l : List Int} (hnd : l.Nodup) (v : Int) :
    v ∉ eraseFirstInt l v := by
  induction l with
  | nil => exact List.not_mem_nil v
  | cons x rest ih =>
    rw [eraseFirstInt]
    rcases List.nodup_cons.mp hnd with ⟨hxr, hrnd⟩
    by_cases hx : (x == v) = true
    · rw [if_pos hx]
      have hxv : x = v := by simpa using hx
      rw [← hxv]
      exact hxr
    · rw [if_neg hx]
      intro h
      rcases List.mem_cons.mp h with h1 | h1
      · exact absurd (by simpa using h1.symm) hx
      · exact ih hrnd h1

theorem adj_nodup {g : Graph} (houts : ∀ p ∈ g, (p.2 : List Int).Nodup) (a : Int) :
    (adj g a).Nodup := by
  rw [adj]
  cases hf : g.find? (fun p => p.1 == a) with
  | none => exact List.nodup_nil
  | some p => exact houts p (List.mem_of_find?_eq_some hf)

theorem adj_map_update {a v : Int} :
    ∀ (g : Graph) (x : Int),
      adj (g.map (fun p => if p.1 == a then (p.1, eraseFirstInt p.2 v) else p)) x =
        if x = a then eraseFirstInt (adj g x) v else adj g x := by
  intro g
  induction g with
  | nil =>
    intro x
    by_cases hx : x = a
    · rw [if_pos hx]
      rfl
    · rw [if_neg hx]
      rfl
  | cons p g2 ih =>
    intro x
    rw [List.map_cons, adj_cons, adj_cons]
    by_cases hpa : (p.1 == a) = true
    · rw [if_pos hpa]
      by_cases hpx : (p.1 == x) = true
      · have hxa : x = a := by
          have h1 : p.1 = a := by simpa using hpa
          have h2 : p.1 = x := by simpa using hpx
          rw [← h2, h1]
        rw [if_pos (show ((p.1, eraseFirstInt p.2 v).1 == x) = true from hpx)]
        rw [if_pos hpx, if_pos hxa]
      · rw [if_neg (show ¬((p.1, eraseFirstInt p.2 v).1 == x) = true from hpx)]
        rw [if_neg hpx, ih x]
    · rw [if_neg hpa]
      by_cases hpx : (p.1 == x) = true
      · have hxa : x ≠ a := by
          have h1 : p.1 = x := by simpa using hpx
          intro hcontra
          exact hpa (by rw [h1, hcontra]; simp)
        rw [if_pos hpx, if_pos hpx, if_neg hxa]
      · rw [if_neg hpx, if_neg hpx, ih x]


theorem adj_append_entry {x : Int} (e : Int × List Int) :
    ∀ (g : Graph), adj (g ++ [e]) x = if (e.1 == x) = true ∧ hasKey g x = false then e.2
      else adj g x := by
  intro g
  induction g with
  | nil =>
    rw [List.nil_append, adj_cons]
    by_cases he : (e.1 == x) = true
    · rw [if_pos he, if_pos ⟨he, rfl⟩]
    · rw [if_neg he, if_neg (fun hc => he hc.1)]
  | cons p g2 ih =>
    rw [List.cons_append, adj_cons, adj_cons]
    by_cases hp : (p.1 == x) = true
    · rw [if_pos hp, if_pos hp]
      have hkey : hasKey (p :: g2) x = true := by
        rw [hasKey, List.any_cons, hp]
        rfl
      rw [if_neg (by intro hc; rw [hkey] at hc; exact Bool.noConfusion hc.2)]
    · rw [if_neg hp, if_neg hp, ih]
      have hp2 : (p.1 == x) = false := by simpa using hp
      have hkeyc : hasKey (p :: g2) x = hasKey g2 x := by
        rw [hasKey, hasKey, List.any_cons, hp2, Bool.false_or]
      rw [hkeyc]

theorem removeEdge_adj (g2 : Graph) (a v x : Int) :
    adj (removeEdge g2 a v) x = if x = a then eraseFirstInt (adj g2 a) v else adj g2 x := by
  rw [removeEdge]
  by_cases hk : hasKey g2 a = true
  · rw [if_pos hk]
    rw [adj_map_update g2 x]
    by_cases hx : x = a
    · rw [if_pos hx, if_pos hx, hx]
    · rw [if_neg hx, if_neg hx]
  · rw [if_neg hk]
    rw [adj_append_entry (a, []) g2]
    by_cases hx : x = a
    · have hkx : hasKey g2 x = false := by
        rw [hx]
        simpa using hk
      rw [if_pos ⟨show ((a, ([] : List Int)).1 == x) = true by simp [hx], hkx⟩]
      rw [if_pos hx]
      rw [adj_eq_nil_of_not_hasKey (show hasKey g2 a = false by simpa using hk)]
      rfl
    · have hnc : ¬(((a, ([] : List Int)).1 == x) = true ∧ hasKey g2 x = false) := by
        intro hc
        have h1 : a = x := by simpa using hc.1
        exact hx h1.symm
      rw [if_neg hnc, if_neg hx]

theorem fold_removeEdge_adj (v : Int) :
    ∀ (as : List Int), as.Nodup → ∀ (g2 : Graph) (x : Int),
      adj (as.foldl (fun h a => removeEdge h a v) g2) x =
        if x ∈ as then eraseFirstInt (adj g2 x) v else adj g2 x := by
  intro as
  induction as with
  | nil =>
    intro _ g2 x
    rw [List.foldl_nil, if_neg (List.not_mem_nil x)]
  | cons a rest ih =>
    intro hnd g2 x
    rcases List.nodup_cons.mp hnd with ⟨hanr, hrnd⟩
    rw [List.foldl_cons, ih hrnd (removeEdge g2 a v) x]
    by_cases hx : x ∈ rest
    · rw [if_pos hx, if_pos (List.mem_cons_of_mem a hx)]
      rw [removeEdge_adj]
      rw [if_neg (fun hcontra : x = a => hanr (hcontra ▸ hx))]
    · rw [if_neg hx]
      rw [removeEdge_adj]
      by_cases hxa : x = a
      · rw [if_pos hxa, if_pos (by rw [hxa]; exact List.mem_cons_self a rest), hxa]
      · rw [if_neg hxa, if_neg (by
          intro hmem
          rcases List.mem_cons.mp hmem with h | h
          · exact hxa h
          · exact hx h)]

theorem adj_filter_out (g : Graph) (v : Int) :
    ∀ x, adj (g.filter (fun p => !(p.1 == v))) x =
      if x = v then [] else adj g x := by
  induction g with
  | nil =>
    intro x
    by_cases hx : x = v
    · rw [if_pos hx]
      rfl
    · rw [if_neg hx]
      rfl
  | cons p g2 ih =>
    intro x
    rw [List.filter_cons]
    by_cases hp : (p.1 == v) = true
    · rw [if_neg (by simp [hp])]
      rw [ih x]
      by_cases hpx : (p.1 == x) = true
      · have h1 : p.1 = v := by simpa using hp
        have h2 : p.1 = x := by simpa using hpx
        rw [if_pos (h2 ▸ h1), if_pos (h2 ▸ h1)]
      · by_cases hx : x = v
        · rw [if_pos hx, if_pos hx]
        · rw [if_neg hx, if_neg hx, adj_cons, if_neg hpx]
    · rw [if_pos (by simp [hp])]
      rw [adj_cons]
      by_cases hpx : (p.1 == x) = true
      · have hxv : x ≠ v := by
          intro hcontra
          have h1 : p.1 = x := by simpa using hpx
          rw [h1, hcontra] at hp
          exact hp (by simp)
        rw [if_pos hpx, if_neg hxv, adj_cons, if_pos hpx]
      · rw [if_neg hpx, ih x]
        by_cases hx : x = v
        · rw [if_pos hx, if_pos hx]
        · rw [if_neg hx, adj_cons, if_neg hpx, if_neg hx]

theorem deleteNode_edges (g : Graph) (txns : List Int) (v : Int) (hnd : txns.Nodup)
    (hsources : ∀ a b, edge g a b → a ∈ txns)
    (houts : ∀ p ∈ g, (p.2 : List Int).Nodup) :
    ∀ a b, edge (deleteNode g txns v) a b ↔ edge g a b ∧ a ≠ v ∧ b ≠ v := by
  intro a b
  rw [edge, deleteNode]
  rw [fold_removeEdge_adj v (txns.filter (fun a => a ≠ v)) (List.Nodup.filter _ hnd)]
  by_cases hav : a = v
  · have hnotin : a ∉ txns.filter (fun a => a ≠ v) := by
      intro hmem
      have h1 := List.of_mem_filter hmem
      simp at h1
      exact h1 hav
    rw [if_neg hnotin, adj_filter_out, if_pos hav]
    constructor
    · intro h
      exact absurd h (List.not_mem_nil b)
    · rintro ⟨_, h2, _⟩
      exact absurd hav h2
  · rw [adj_filter_out, if_neg hav]
    by_cases hatxn : a ∈ txns
    · have hin : a ∈ txns.filter (fun a => a ≠ v) :=
        List.mem_filter.mpr ⟨hatxn, by simpa using hav⟩
      rw [if_pos hin]
      by_cases hbv : b = v
      · subst hbv
        constructor
        · intro h
          exact absurd h (not_mem_eraseFirstInt_self (adj_nodup houts a) b)
        · rintro ⟨_, _, h3⟩
          exact absurd rfl h3
      · rw [mem_eraseFirstInt_of_ne hbv]
        constructor
        · intro h
          exact ⟨h, hav, hbv⟩
        · exact fun h => h.1
    · have hnotin : a ∉ txns.filter (fun a => a ≠ v) := by
        intro hmem
        exact hatxn (List.mem_of_mem_filter hmem)
      rw [if_neg hnotin]
      constructor
      · intro h
        exact absurd (hsources a b h) hatxn
      · exact fun h => h.1

/-- C4: on any waits-for graph whose edges stay within the registered
transaction set and whose out-edge lists are duplicate-free, `HasCycle`
reports a cycle iff the graph has one; when it fires, the reported victim is
the maximum transaction id of the active DFS set at detection; the detector
then marks the victim ABORTED and `DeleteNode` removes exactly the edges
touching it. -/
theorem C4_deadlock_detection (g : Graph) (txns : List Int)
    (hnd : txns.Nodup)
    (hnodes : ∀ a b, edge g a b → a ∈ txns ∧ b ∈ txns)
    (houts : ∀ p ∈ g, (p.2 : List Int).Nodup)
    (states : Int → TransactionState) (v : Int) :
    ((hasCycle g txns).isSome ↔ cyclic g) ∧
      (∀ w, hasCycleAux g (txns.length + 1) txns ⟨[], []⟩ = some w →
        hasCycle g txns = some (maxOf w) ∧ maxOf w ∈ w ∧ ∀ x ∈ w, x ≤ maxOf w) ∧
      abortVictim states v v = TransactionState.aborted ∧
      (∀ a b, edge (deleteNode g txns v) a b ↔ edge g a b ∧ a ≠ v ∧ b ≠ v) := by
  refine ⟨?_, ?_, ?_, ?_⟩
  · constructor
    · intro hsome
      rw [hasCycle] at hsome
      cases haux : hasCycleAux g (txns.length + 1) txns ⟨[], []⟩ with
      | none =>
        rw [haux] at hsome
        simp at hsome
      | some w =>
        exact (hasCycleAux_some g (txns.length + 1) txns ⟨[], []⟩ w rfl haux).1
    · intro hcyc
      rw [hasCycle]
      cases haux : hasCycleAux g (txns.length + 1) txns ⟨[], []⟩ with
      | some w => rfl
      | none =>
        exfalso
        obtain ⟨a, b, hab, hba⟩ := hcyc
        refine hasCycleAux_none g txns hnd (fun a b h => (hnodes a b h).2)
          (txns.length + 1) txns ⟨[], []⟩ (fun s hs => hs)
          (fun s hs => absurd hs (List.not_mem_nil s)) rfl
          (Nat.lt_succ_of_le (List.length_filter_le _ txns)) haux a
          (hnodes a b hab).1 ⟨a, b, Relation.ReflTransGen.refl, hab, hba⟩
  · intro w hw
    have h2 := hasCycleAux_some g (txns.length + 1) txns ⟨[], []⟩ w rfl hw
    have hms := maxOf_spec h2.2
    refine ⟨?_, hms.1, hms.2⟩
    rw [hasCycle, hw]
    rfl
  · simp [abortVictim]
  · exact deleteNode_edges g txns v hnd (fun a b h => (hnodes a b h).1) houts

theorem C4_deadlock_detection_witness :
    ([1, 2] : List Int).Nodup ∧
      (∀ p ∈ [((1 : Int), [(2 : Int)]), ((2 : Int), [(1 : Int)])],
        (p.2 : List Int).Nodup) ∧
      (((hasCycle [((1 : Int), [(2 : Int)]), ((2 : Int), [(1 : Int)])] [1, 2]).isSome ↔
          cyclic [((1 : Int), [(2 : Int)]), ((2 : Int), [(1 : Int)])]) ∧
        (∀ w, hasCycleAux [((1 : Int), [(2 : Int)]), ((2 : Int), [(1 : Int)])]
            (([1, 2] : List Int).length + 1) [1, 2] ⟨[], []⟩ = some w →
          hasCycle [((1 : Int), [(2 : Int)]), ((2 : Int), [(1 : Int)])] [1, 2] =
              some (maxOf w) ∧ maxOf w ∈ w ∧ ∀ x ∈ w, x ≤ maxOf w) ∧
        abortVictim (fun _ => TransactionState.growing) 2 2 =
          TransactionState.aborted ∧
        (∀ a b,
          edge (deleteNode [((1 : Int), [(2 : Int)]), ((2 : Int), [(1 : Int)])] [1, 2] 2)
              a b ↔
            edge [((1 : Int), [(2 : Int)]), ((2 : Int), [(1 : Int)])] a b ∧
              a ≠ 2 ∧ b ≠ 2)) := by
  refine ⟨by decide, by decide, ?_⟩
  refine C4_deadlock_detection [((1 : Int), [(2 : Int)]), ((2 : Int), [(1 : Int)])]
    [1, 2] (by decide) ?_ (by decide) (fun _ => TransactionState.growing) 2
  intro a b h
  rw [edge] at h
  by_cases ha1 : a = 1
  · subst ha1
    have hadj : adj [((1 : Int), [(2 : Int)]), ((2 : Int), [(1 : Int)])] 1 = [2] := rfl
    rw [hadj] at h
    have hb : b = 2 := by simpa using h
    subst hb
    exact ⟨by decide, by decide⟩
  · by_cases ha2 : a = 2
    · subst ha2
      have hadj : adj [((1 : Int), [(2 : Int)]), ((2 : Int), [(1 : Int)])] 2 = [1] := rfl
      rw [hadj] at h
      have hb : b = 1 := by simpa using h
      subst hb
      exact ⟨by decide, by decide⟩
    · have hk : hasKey [((1 : Int), [(2 : Int)]), ((2 : Int), [(1 : Int)])] a = false := by
        rw [hasKey]
        simp [ha1, ha2]
        constructor
        · exact fun hc => ha1 hc.symm
        · exact fun hc => ha2 hc.symm
      rw [adj_eq_nil_of_not_hasKey hk] at h
      exact absurd h (List.not_mem_nil b)

end Detect

end Bustub
